import Mathlib

/-!
Verification of the legal-demystifier core: the structured-output extractor
(backend/app/utils.py, safe_parse_json), the risk-scoring engine
(backend/app/risk_engine.py, rule_score_for_clause and combined_score) and
the clause pipeline of VertexRAGClient.summarize_document
(backend/app/rag_client.py).

Modelling conventions:
 - Python JSON values are the inductive type Json below; Python's None and
   JSON null are both Json.null (Python's json.loads decodes null to None,
   so the two are one value in Python as well).
 - Numbers are exact rationals.  Python parses JSON numbers to int or
   IEEE-754 float; every concrete number these claims touch is reproduced
   exactly by rational arithmetic, and the NaN and Infinity extensions that
   Python accepts (not part of JSON) are rejected by the model parser.
 - Python's json.loads is modelled by jsonLoads: a recursive-descent parser
   over the character list following the json module's grammar (strict
   whitespace set, object keys collapsed with dict semantics, an
   Extra-data error when characters remain).  Exceptions are Except.error.
   Recursion is bounded by fuel of three units per input character, which
   a run can never exhaust, since between any three recursive steps at
   least one character is consumed.
 - Strings are Lean strings (sequences of unicode scalar values); lone
   surrogates, which CPython tolerates inside decoded strings, have no
   Char representation and are treated as parse errors.
 - Python string.lower is modelled by Char.toLower per character, which
   agrees with Python on ASCII text (all keyword patterns are ASCII).
-/

/-- A Python value decoded from JSON.  Json.null doubles as Python None. -/
inductive Json : Type where
  | null : Json
  | bool : Bool → Json
  | num : ℚ → Json
  | str : String → Json
  | arr : List Json → Json
  | obj : List (String × Json) → Json

/-- The opening-brace character, written without a brace literal. -/
def lbrace : Char := Char.ofNat 123

/-- The closing-brace character, written without a brace literal. -/
def rbrace : Char := Char.ofNat 125

/-- The whitespace characters the Python json module skips between tokens. -/
def isJsonWs (c : Char) : Bool :=
  c == ' ' || c == '\t' || c == '\n' || c == '\r'

/-- Drop the json module's whitespace from the front of the input. -/
def skipWs : List Char → List Char
  | [] => []
  | c :: r => if isJsonWs c then skipWs r else c :: r

/-- Numeric value of a decimal digit character. -/
def digVal (c : Char) : ℕ := c.toNat - '0'.toNat

/-- The maximal run of decimal digits at the front of the input. -/
def takeDigits : List Char → List Char × List Char
  | [] => ([], [])
  | c :: r =>
    if c.isDigit then
      let p := takeDigits r
      (c :: p.1, p.2)
    else ([], c :: r)

/-- The number denoted by a list of decimal digits, most significant first. -/
def digsVal (l : List Char) : ℕ := l.foldl (fun a c => 10 * a + digVal c) 0

/-- An optional leading minus sign (the json number grammar). -/
def parseSign : List Char → Bool × List Char
  | c :: r => if c = '-' then (true, r) else (false, c :: r)
  | [] => (false, [])

/-- The integer part of a json number: 0, or a nonzero digit then digits.
A leading zero is not followed by more integer digits, exactly as the json
module's number regular expression has it. -/
def parseIntPart : List Char → Except String (ℕ × List Char)
  | [] => .error "Expecting value"
  | c :: r =>
    if c = '0' then .ok (0, r)
    else if c.isDigit then
      let p := takeDigits (c :: r)
      .ok (digsVal p.1, p.2)
    else .error "Expecting value"

/-- The optional fraction part: a dot followed by at least one digit;
otherwise nothing is consumed. -/
def parseFrac (l : List Char) : List Char × List Char :=
  match l with
  | '.' :: r =>
    match takeDigits r with
    | ([], _) => ([], l)
    | (d, rest) => (d, rest)
  | _ => ([], l)

/-- The digits of an exponent after its marker and optional sign. -/
def parseExpDigits (orig r : List Char) (neg : Bool) : ℤ × List Char :=
  match takeDigits r with
  | ([], _) => (0, orig)
  | (d, rest) => (if neg then -(digsVal d : ℤ) else (digsVal d : ℤ), rest)

/-- The optional exponent part: e or E, an optional sign, then at least one
digit; otherwise nothing is consumed. -/
def parseExp (l : List Char) : ℤ × List Char :=
  match l with
  | c :: r =>
    if c = 'e' ∨ c = 'E' then
      match r with
      | '-' :: rr => parseExpDigits l rr true
      | '+' :: rr => parseExpDigits l rr false
      | _ => parseExpDigits l r false
    else (0, l)
  | [] => (0, [])

/-- The rational mant times ten to the e, built through integer arithmetic
and mkRat only, so that parses of concrete inputs reduce inside the
kernel. -/
def sciToRat (mant : ℤ) (e : ℤ) : ℚ :=
  if 0 ≤ e then ((mant * 10 ^ e.toNat : ℤ) : ℚ)
  else mkRat mant (10 ^ (-e).toNat)

/-- A json number at the front of the input, as an exact rational. -/
def parseNumber (l : List Char) : Except String (ℚ × List Char) :=
  let s := parseSign l
  match parseIntPart s.2 with
  | .error e => .error e
  | .ok (i, l2) =>
    let f := parseFrac l2
    let e := parseExp f.2
    let mant : ℤ := (i * 10 ^ f.1.length + digsVal f.1 : ℕ)
    let mant : ℤ := if s.1 then -mant else mant
    .ok (sciToRat mant (e.1 - f.1.length), e.2)

/-- Numeric value of a hexadecimal digit character, if it is one. -/
def hexVal (c : Char) : Option ℕ :=
  if '0' ≤ c ∧ c ≤ '9' then some (c.toNat - '0'.toNat)
  else if 'a' ≤ c ∧ c ≤ 'f' then some (c.toNat - 'a'.toNat + 10)
  else if 'A' ≤ c ∧ c ≤ 'F' then some (c.toNat - 'A'.toNat + 10)
  else none

/-- The code point of four hexadecimal digits, if all four are such. -/
def hex4 (a b c d : Char) : Option ℕ :=
  match hexVal a, hexVal b, hexVal c, hexVal d with
  | some x, some y, some z, some w => some (((x * 16 + y) * 16 + z) * 16 + w)
  | _, _, _, _ => none

/-- The single character denoted by a short backslash escape. -/
def escCode (c : Char) : Option Char :=
  if c = '"' then some '"'
  else if c = '\\' then some '\\'
  else if c = '/' then some '/'
  else if c = 'b' then some (Char.ofNat 8)
  else if c = 'f' then some (Char.ofNat 12)
  else if c = 'n' then some '\n'
  else if c = 'r' then some '\r'
  else if c = 't' then some '\t'
  else none

/-- The body of a json string after its opening quote: the decoded
characters and the input after the closing quote.  Escapes follow the json
module: the eight short escapes, backslash-u with four hex digits, and a
surrogate pair as two consecutive backslash-u escapes.  Raw control
characters are rejected (strict mode); a lone surrogate, which has no Lean
Char, is a model-level error. -/
def parseStrF : ℕ → List Char → Except String (List Char × List Char)
  | 0, _ => .error "Recursion limit"
  | f + 1, l =>
    match l with
    | [] => .error "Unterminated string"
    | c :: r =>
      if c = '"' then .ok ([], r)
      else if c = '\\' then
        match r with
        | [] => .error "Unterminated string"
        | e :: r2 =>
          if e = 'u' then
            match r2 with
            | h1 :: h2 :: h3 :: h4 :: r3 =>
              match hex4 h1 h2 h3 h4 with
              | none => .error "Invalid escape"
              | some n =>
                if 0xD800 ≤ n ∧ n < 0xDC00 then
                  match r3 with
                  | e2 :: u2 :: g1 :: g2 :: g3 :: g4 :: r4 =>
                    if e2 = '\\' ∧ u2 = 'u' then
                      match hex4 g1 g2 g3 g4 with
                      | none => .error "Invalid escape"
                      | some m =>
                        if 0xDC00 ≤ m ∧ m < 0xE000 then
                          match parseStrF f r4 with
                          | .error e3 => .error e3
                          | .ok (cs, rest) =>
                            .ok (Char.ofNat
                              (0x10000 + (n - 0xD800) * 0x400 + (m - 0xDC00)) :: cs, rest)
                        else .error "Unpaired surrogate"
                    else .error "Unpaired surrogate"
                  | _ => .error "Unpaired surrogate"
                else if 0xDC00 ≤ n ∧ n < 0xE000 then .error "Unpaired surrogate"
                else
                  match parseStrF f r3 with
                  | .error e3 => .error e3
                  | .ok (cs, rest) => .ok (Char.ofNat n :: cs, rest)
            | _ => .error "Invalid escape"
          else
            match escCode e with
            | none => .error "Invalid escape"
            | some ch =>
              match parseStrF f r2 with
              | .error er => .error er
              | .ok (cs, rest) => .ok (ch :: cs, rest)
      else if c.toNat < 0x20 then .error "Invalid control character"
      else
        match parseStrF f r with
        | .error e3 => .error e3
        | .ok (cs, rest) => .ok (c :: cs, rest)

/-- The body of a json string starting after its opening quote, with fuel
of one unit per input character plus one, which a run can never exhaust
since every recursive step first consumes at least one character. -/
def parseStrL (l : List Char) : Except String (List Char × List Char) :=
  parseStrF (l.length + 1) l

/-- A json string after its opening quote, as a Lean string. -/
def parseStr (l : List Char) : Except String (String × List Char) :=
  match parseStrL l with
  | .error e => .error e
  | .ok (cs, rest) => .ok (String.mk cs, rest)

/-- Insertion into an association list with Python dict semantics: an
existing key keeps its position and takes the new value, a new key goes to
the end. -/
def dictInsert (kvs : List (String × Json)) (k : String) (v : Json) :
    List (String × Json) :=
  if k ∈ kvs.map Prod.fst then
    kvs.map (fun kv => if kv.1 = k then (k, v) else kv)
  else kvs ++ [(k, v)]

/-- Left fold of dictInsert over parsed key-value pairs: how the json
module builds the Python dict for an object. -/
def buildDict (ps : List (String × Json)) : List (String × Json) :=
  ps.foldl (fun a p => dictInsert a p.1 p.2) []

/-- What the recursive-descent parser is busy with: a value, the inside of
an object just after its opening brace, the remaining key-value items of
an object, the inside of an array just after its opening bracket, or the
remaining items of an array. -/
inductive PMode : Type where
  | value : PMode
  | objStart : PMode
  | objItems : PMode
  | arrStart : PMode
  | arrItems : PMode

/-- A parser intermediate result: a finished value, the elements of an
array, or the key-value pairs of an object in source order. -/
inductive POut : Type where
  | val : Json → POut
  | items : List Json → POut
  | pairs : List (String × Json) → POut

/-- The json module's recursive-descent parser, all modes in one function
in structural recursion on the fuel so that concrete runs reduce inside
the kernel.  Whitespace is skipped exactly where the Python scanner skips
it: after an opening bracket or brace, around colons and commas, and (by
the caller jsonLoadsL) around the whole document. -/
def parseF : ℕ → PMode → List Char → Except String (POut × List Char)
  | 0, _, _ => .error "Recursion limit"
  | f + 1, .value, l =>
    match l with
    | [] => .error "Expecting value"
    | c :: r =>
      if c = lbrace then parseF f .objStart (skipWs r)
      else if c = '[' then parseF f .arrStart (skipWs r)
      else if c = '"' then
        match parseStr r with
        | .error e => .error e
        | .ok (s, rest) => .ok (.val (Json.str s), rest)
      else if c = 'n' then
        match r with
        | 'u' :: 'l' :: 'l' :: rest => .ok (.val Json.null, rest)
        | _ => .error "Expecting value"
      else if c = 't' then
        match r with
        | 'r' :: 'u' :: 'e' :: rest => .ok (.val (Json.bool true), rest)
        | _ => .error "Expecting value"
      else if c = 'f' then
        match r with
        | 'a' :: 'l' :: 's' :: 'e' :: rest => .ok (.val (Json.bool false), rest)
        | _ => .error "Expecting value"
      else if c = '-' ∨ c.isDigit then
        match parseNumber (c :: r) with
        | .error e => .error e
        | .ok (q, rest) => .ok (.val (Json.num q), rest)
      else .error "Expecting value"
  | f + 1, .objStart, l =>
    match l with
    | c :: rest =>
      if c = rbrace then .ok (.val (Json.obj []), rest)
      else
        match parseF f .objItems (c :: rest) with
        | .error e => .error e
        | .ok (.pairs ps, r2) => .ok (.val (Json.obj (buildDict ps)), r2)
        | .ok (_, _) => .error "Invalid parser state"
    | [] => .error "Expecting property name"
  | f + 1, .objItems, l =>
    match l with
    | c :: r =>
      if c = '"' then
        match parseStr r with
        | .error e => .error e
        | .ok (k, r1) =>
          match skipWs r1 with
          | [] => .error "Expecting colon"
          | d0 :: r2 =>
            if d0 = ':' then
              match parseF f .value (skipWs r2) with
              | .error e => .error e
              | .ok (.val v, r3) =>
                match skipWs r3 with
                | d :: r4 =>
                  if d = rbrace then .ok (.pairs [(k, v)], r4)
                  else if d = ',' then
                    match parseF f .objItems (skipWs r4) with
                    | .error e => .error e
                    | .ok (.pairs ps, r5) => .ok (.pairs ((k, v) :: ps), r5)
                    | .ok (_, _) => .error "Invalid parser state"
                  else .error "Expecting delimiter"
                | [] => .error "Expecting delimiter"
              | .ok (_, _) => .error "Invalid parser state"
            else .error "Expecting colon"
      else .error "Expecting property name"
    | [] => .error "Expecting property name"
  | _ + 1, .arrStart, [] => .error "Expecting value"
  | f + 1, .arrStart, c :: rest =>
    if c = ']' then .ok (.val (Json.arr []), rest)
    else
      match parseF f .arrItems (c :: rest) with
      | .error e => .error e
      | .ok (.items vs, r2) => .ok (.val (Json.arr vs), r2)
      | .ok (_, _) => .error "Invalid parser state"
  | f + 1, .arrItems, l =>
    match parseF f .value l with
    | .error e => .error e
    | .ok (.val v, r) =>
      match skipWs r with
      | [] => .error "Expecting delimiter"
      | d :: r2 =>
        if d = ']' then .ok (.items [v], r2)
        else if d = ',' then
          match parseF f .arrItems (skipWs r2) with
          | .error e => .error e
          | .ok (.items vs, r3) => .ok (.items (v :: vs), r3)
          | .ok (_, _) => .error "Invalid parser state"
        else .error "Expecting delimiter"
    | .ok (_, _) => .error "Invalid parser state"

/-- Python's json.loads on a character list: skip leading whitespace, read
one value, require only whitespace after it (else the Extra-data error). -/
def jsonLoadsL (l : List Char) : Except String Json :=
  match parseF (3 * l.length + 3) .value (skipWs l) with
  | .error e => .error e
  | .ok (.val v, rest) => if skipWs rest = [] then .ok v else .error "Extra data"
  | .ok (_, _) => .error "Invalid parser state"

/-- Python's json.loads on a string. -/
def jsonLoads (s : String) : Except String Json := jsonLoadsL s.data

/-- Index of the first element satisfying the predicate, if any. -/
def firstIdx (p : Char → Bool) : List Char → Option ℕ
  | [] => none
  | c :: r => if p c then some 0 else (firstIdx p r).map (· + 1)

/-- First index of a character in a list, as Python str.index: a ValueError
(modelled as Except.error) when the character does not occur. -/
def strIndex (l : List Char) (c : Char) : Except String ℕ :=
  match firstIdx (· = c) l with
  | some i => .ok i
  | none => .error "ValueError"

/-- Last index of a character in a list, as Python str.rindex. -/
def strRIndex (l : List Char) (c : Char) : Except String ℕ :=
  match firstIdx (· = c) l.reverse with
  | some i => .ok (l.length - 1 - i)
  | none => .error "ValueError"

/-- Python slice text[i:j] on a character list (j past the end clamps, an
empty slice when j is at most i). -/
def pySlice (l : List Char) (i j : ℕ) : List Char := (l.drop i).take (j - i)

/-- Sequencing of two Python statements under one try: the second runs only
when the first succeeded. -/
def tryExcept {α : Type} (body handler : Except String α) : Except String α :=
  match body with
  | .ok v => .ok v
  | .error _ => handler

/-- The inner try body of the extractor: index of the first opening brace,
index of the last closing brace, then json.loads on the inclusive slice;
the first raising step aborts the chain. -/
def braceFallback (text : String) : Except String Json :=
  match strIndex text.data lbrace with
  | .error e => .error e
  | .ok s =>
    match strRIndex text.data rbrace with
    | .error e => .error e
    | .ok e => jsonLoadsL (pySlice text.data s (e + 1))

/-- The body of utils.safe_parse_json with exceptions left visible: try
json.loads on the whole text; on any exception try the slice from the
first opening brace to the last closing brace inclusive; on any exception
there return None (the logging call has no observable effect). -/
def safe_parse_json_exc (text : String) : Except String Json :=
  tryExcept (jsonLoads text) (tryExcept (braceFallback text) (.ok Json.null))

/-- utils.safe_parse_json: the total function the caller observes.  Python
None (the failure result, and the decoding of JSON null) is Json.null. -/
def safe_parse_json (text : String) : Json :=
  match safe_parse_json_exc text with
  | .ok v => v
  | .error _ => Json.null

/-- Whether p is a prefix of l (plain boolean, by character equality). -/
def startsWithL (p l : List Char) : Bool :=
  match p, l with
  | [], _ => true
  | _ :: _, [] => false
  | a :: as, b :: bs => a == b && startsWithL as bs

/-- Whether p occurs as a contiguous substring of l. -/
def hasSub (p l : List Char) : Bool :=
  if startsWithL p l then true
  else
    match l with
    | [] => false
    | _ :: r => hasSub p r

/-- Python re.search of one keyword pattern over the lower-cased clause
text.  Each pattern of RISK_KEYWORDS is a regular expression whose
language is a finite set of literals, so the search is compiled to
substring tests: penalt(y or ies) matches penalty or penalties,
auto(-optional)renew matches autorenew or auto-renew, every other pattern
is a single literal. -/
def reSearch (alts : List String) (t : List Char) : Bool :=
  alts.any (fun a => hasSub a.data t)

/-- RISK_KEYWORDS high severity list, each regex as its literal
alternatives, in source order. -/
def RISK_KEYWORDS_high : List (List String) :=
  [["penalty", "penalties"], ["indemnif"], ["liabilit"], ["arbitration"],
   ["waiv"], ["class action waiver"]]

/-- RISK_KEYWORDS medium severity list, each regex as its literal
alternatives, in source order. -/
def RISK_KEYWORDS_medium : List (List String) :=
  [["early termination fee"], ["renewal"], ["autorenew", "auto-renew"],
   ["late fee"], ["governing law"]]

/-- risk_engine.rule_score_for_clause: 40 points per matching high
pattern and 15 per matching medium pattern on the lower-cased text,
capped at 100. -/
def rule_score_for_clause (text : String) : ℚ :=
  let t := text.data.map Char.toLower
  let s1 : ℚ :=
    RISK_KEYWORDS_high.foldl (fun s kw => if reSearch kw t then s + 40 else s) 0
  let s2 : ℚ :=
    RISK_KEYWORDS_medium.foldl (fun s kw => if reSearch kw t then s + 15 else s) s1
  min 100 s2

/-- risk_engine.combined_score: the weighted blend of the model-supplied
and the rule-based score, clamped into the interval from 0 to 100.  The
weight defaults to 0.6 as in the source. -/
def combined_score (llm_score ruleScore : ℚ) (w_llm : ℚ := 6 / 10) : ℚ :=
  max 0 (min 100 (w_llm * llm_score + (1 - w_llm) * ruleScore))

/-- The risk discretization written inline in summarize_document: high
from 66 up, medium from 33 up, low below. -/
def categorize (s : ℚ) : String :=
  if s ≥ 66 then "high" else if s ≥ 33 then "medium" else "low"

/-- Python dict.get on the modelled object pairs (keys are unique in any
dict the pipeline builds, so first match is the value). -/
def pyGet (kvs : List (String × Json)) (k : String) : Option Json :=
  List.lookup k kvs

/-- Python whitespace stripped by float() around a string argument. -/
def isPySpace (c : Char) : Bool :=
  c == ' ' || c == '\t' || c == '\n' || c == '\r' ||
    c == Char.ofNat 11 || c == Char.ofNat 12

/-- Python float() on a string: optional sign, digits with an optional
dot on either side, an optional exponent, surrounding whitespace
stripped.  The inf and nan spellings, which have no rational value, and
digit-group underscores are model-level errors (no claim exercises
them). -/
def parsePyFloat (s : String) : Except String ℚ :=
  let l := (((s.data.dropWhile isPySpace).reverse.dropWhile isPySpace).reverse)
  let sg := parseSign l
  let ip := takeDigits sg.2
  let fp : List Char × List Char :=
    match ip.2 with
    | '.' :: r => takeDigits r
    | _ => ([], ip.2)
  if ip.1 = [] ∧ fp.1 = [] then .error "ValueError"
  else
    let mant : ℤ := (digsVal ip.1 * 10 ^ fp.1.length + digsVal fp.1 : ℕ)
    let mant : ℤ := if sg.1 then -mant else mant
    match fp.2 with
    | [] => .ok (sciToRat mant (-(fp.1.length : ℤ)))
    | c :: r =>
      if c = 'e' ∨ c = 'E' then
        let es := parseSign r
        let ed := takeDigits es.2
        if ed.1 = [] ∨ ed.2 ≠ [] then .error "ValueError"
        else
          let ex : ℤ := if es.1 then -(digsVal ed.1 : ℤ) else (digsVal ed.1 : ℤ)
          .ok (sciToRat mant (ex - fp.1.length))
      else .error "ValueError"

/-- Python float() applied to a decoded JSON value: numbers pass through,
booleans become 0 or 1, strings are parsed, anything else raises. -/
def pyFloat : Json → Except String ℚ
  | .num q => .ok q
  | .bool b => .ok (if b then 1 else 0)
  | .str s => parsePyFloat s
  | .null => .error "TypeError"
  | .arr _ => .error "TypeError"
  | .obj _ => .error "TypeError"

/-- Python truthiness of a decoded JSON value (the if-not-parsed test). -/
def truthy : Json → Bool
  | .null => false
  | .bool b => b
  | .num q => if q = 0 then false else true
  | .str s => if s = "" then false else true
  | .arr xs => !xs.isEmpty
  | .obj kvs => !kvs.isEmpty

/-- Whether a decoded value is Python None (the is-None test). -/
def Json.isNull : Json → Bool
  | .null => true
  | _ => false

/-- One output clause record of summarize_document. -/
structure ClauseOut : Type where
  original : Json
  simplified : Json
  risk : String
  score : ℚ
  provenance : Json

/-- The per-clause body of the summarize_document loop.  A clause that is
not a dict raises AttributeError at its first get; an llm_score value
that is present, not null and not convertible by float() raises there;
otherwise the record is built, the missing or null llm_score replaced by
50. -/
def clause_to_record (c : Json) : Except String ClauseOut :=
  match c with
  | .obj kvs =>
    let sv := (pyGet kvs "llm_score").getD Json.null
    match (if sv.isNull then Except.ok (50 : ℚ) else pyFloat sv) with
    | .error e => .error e
    | .ok llm =>
      .ok { original := (pyGet kvs "original").getD (Json.str "")
            simplified := (pyGet kvs "simplified").getD (Json.str "")
            risk := categorize llm
            score := llm
            provenance := (pyGet kvs "provenance").getD (Json.arr []) }
  | _ => .error "AttributeError"

/-- Python iteration over the clauses value: lists yield their elements,
strings their characters as one-character strings, dicts their keys;
everything else raises TypeError. -/
def iterClauses : Json → Except String (List Json)
  | .arr xs => .ok xs
  | .str s => .ok (s.data.map (fun c => Json.str (String.mk [c])))
  | .obj kvs => .ok (kvs.map (fun p => Json.str p.1))
  | _ => .error "TypeError"

/-- The structured summary summarize_document returns. -/
structure DocSummary : Type where
  title : Json
  summary : Json
  overall_risk_score : ℚ
  rag_corpus_name : String
  clauses : List ClauseOut

/-- The record returned by the except-Exception handler of
summarize_document. -/
def failureSummary (ragCorpusName : String) : DocSummary :=
  { title := Json.null
    summary := Json.str "Failed to summarize document"
    overall_risk_score := 50
    rag_corpus_name := ragCorpusName
    clauses := [] }

/-- The minimal structured fallback built when the model text yields no
truthy parse; its summary text comes from the external retrieval call,
modelled as the parameter. -/
def fallbackSummary (ragCorpusName fallbackText : String) : DocSummary :=
  { title := Json.null
    summary := Json.str fallbackText
    overall_risk_score := 50
    rag_corpus_name := ragCorpusName
    clauses := [] }

/-- Run the per-clause conversion over the clause list, stopping at the
first raised exception, as the Python for-loop does. -/
def mapClauses : List Json → Except String (List ClauseOut)
  | [] => .ok []
  | c :: cs =>
    match clause_to_record c with
    | .error e => .error e
    | .ok r =>
      match mapClauses cs with
      | .error e => .error e
      | .ok rs => .ok (r :: rs)

/-- The try-block body of VertexRAGClient.summarize_document from the
point the model response text is in hand, exceptions left visible.  The
external inputs are the model response text, the retrieval fallback text
and the corpus name. -/
def summarize_document_exc (modelText fallbackText ragCorpusName : String) :
    Except String DocSummary :=
  let parsed := safe_parse_json modelText
  if truthy parsed then
    match parsed with
    | .obj kvs =>
      match iterClauses ((pyGet kvs "clauses").getD (Json.arr [])) with
      | .error e => .error e
      | .ok cs =>
        match mapClauses cs with
        | .error e => .error e
        | .ok clausesOut =>
          match pyFloat ((pyGet kvs "overall_risk_score").getD (Json.num 50)) with
          | .error e => .error e
          | .ok overall =>
            .ok { title := (pyGet kvs "title").getD Json.null
                  summary := (pyGet kvs "summary").getD (Json.str "")
                  overall_risk_score := overall
                  rag_corpus_name := ragCorpusName
                  clauses := clausesOut }
    | _ => .error "AttributeError"
  else .ok (fallbackSummary ragCorpusName fallbackText)

/-- VertexRAGClient.summarize_document as the caller observes it: any
exception in the body is absorbed into the failure record. -/
def summarize_document (modelText fallbackText ragCorpusName : String) :
    DocSummary :=
  match summarize_document_exc modelText fallbackText ragCorpusName with
  | .ok out => out
  | .error _ => failureSummary ragCorpusName

/-- Folding an add-if-match step over a pattern list amounts to counting
the matching patterns. -/
theorem foldl_addIf (k : ℚ) (t : List Char) (L : List (List String)) :
    ∀ init : ℚ,
      L.foldl (fun s kw => if reSearch kw t then s + k else s) init =
        init + k * L.countP (fun kw => reSearch kw t) := by
  induction L with
  | nil => intro init; simp
  | cons a L ih =>
    intro init
    simp only [List.foldl_cons, List.countP_cons]
    by_cases h : reSearch a t
    · simp only [h, if_true, ih]
      push_cast
      ring
    · simp [h, ih]

/-- The rule score in closed form: forty points per matching high pattern
plus fifteen per matching medium pattern, capped at one hundred. -/
theorem rule_score_closed_form (t : String) :
    rule_score_for_clause t =
      min 100
        (40 * (RISK_KEYWORDS_high.countP
            (fun kw => reSearch kw (t.data.map Char.toLower)) : ℚ) +
         15 * (RISK_KEYWORDS_medium.countP
            (fun kw => reSearch kw (t.data.map Char.toLower)) : ℚ)) := by
  simp only [rule_score_for_clause]
  rw [foldl_addIf, foldl_addIf]
  ring_nf

/-- C5: for every clause text the rule score is the sum of 40 points per
matching high-severity pattern and 15 per matching medium-severity
pattern over the lower-cased text, clamped to at most 100; it always lies
in the interval from 0 to 100 and depends only on the text; the
indemnification-and-arbitration sentence scores at least 80 and the plain
weather sentence scores 0. -/
theorem C5_rule_score :
    (∀ t : String,
      rule_score_for_clause t =
        min 100
          (40 * (RISK_KEYWORDS_high.countP
              (fun kw => reSearch kw (t.data.map Char.toLower)) : ℚ) +
           15 * (RISK_KEYWORDS_medium.countP
              (fun kw => reSearch kw (t.data.map Char.toLower)) : ℚ)) ∧
      0 ≤ rule_score_for_clause t ∧ rule_score_for_clause t ≤ 100) ∧
    80 ≤ rule_score_for_clause
      ("This agreement includes an indemnification clause and binding arbitration.") ∧
    rule_score_for_clause ("This is a plain sentence about weather.") = 0 := by
  refine ⟨fun t => ⟨rule_score_closed_form t, ?_, ?_⟩, ?_, by rfl⟩
  · rw [rule_score_closed_form]
    have h1 : (0 : ℚ) ≤ 40 * (RISK_KEYWORDS_high.countP
        (fun kw => reSearch kw (t.data.map Char.toLower)) : ℚ) +
        15 * (RISK_KEYWORDS_medium.countP
        (fun kw => reSearch kw (t.data.map Char.toLower)) : ℚ) := by
      positivity
    exact le_min (by norm_num) h1
  · rw [rule_score_closed_form]
    exact min_le_left _ _
  · have h2 : reSearch ["indemnif"]
        ("This agreement includes an indemnification clause and binding arbitration.".data.map
          Char.toLower) = true := by rfl
    have h4 : reSearch ["arbitration"]
        ("This agreement includes an indemnification clause and binding arbitration.".data.map
          Char.toLower) = true := by rfl
    rw [rule_score_closed_form]
    have hc : (2 : ℚ) ≤ (RISK_KEYWORDS_high.countP
        (fun kw => reSearch kw
          ("This agreement includes an indemnification clause and binding arbitration.".data.map
            Char.toLower)) : ℚ) := by
      have : 2 ≤ RISK_KEYWORDS_high.countP
          (fun kw => reSearch kw
            ("This agreement includes an indemnification clause and binding arbitration.".data.map
              Char.toLower)) := by decide
      exact_mod_cast this
    have hcap : (RISK_KEYWORDS_high.countP
        (fun kw => reSearch kw
          ("This agreement includes an indemnification clause and binding arbitration.".data.map
            Char.toLower)) : ℚ) = 2 := by
      have : RISK_KEYWORDS_high.countP
          (fun kw => reSearch kw
            ("This agreement includes an indemnification clause and binding arbitration.".data.map
              Char.toLower)) = 2 := by decide
      exact_mod_cast this
    have hm : (RISK_KEYWORDS_medium.countP
        (fun kw => reSearch kw
          ("This agreement includes an indemnification clause and binding arbitration.".data.map
            Char.toLower)) : ℚ) = 0 := by
      have : RISK_KEYWORDS_medium.countP
          (fun kw => reSearch kw
            ("This agreement includes an indemnification clause and binding arbitration.".data.map
              Char.toLower)) = 0 := by decide
      exact_mod_cast this
    rw [hcap, hm]
    norm_num

/-- C6: the combination step computes the weighted blend of the two
scores and clamps it into the interval from 0 to 100; it is total on all
rationals, including out-of-range inputs; at the spec test points it
yields exactly 54 and exactly 72 (the formula value, as the spec
directs). -/
theorem C6_combined_score :
    combined_score 90 0 = 54 ∧
    combined_score 120 0 = 72 ∧
    (∀ m r w : ℚ, combined_score m r w = max 0 (min 100 (w * m + (1 - w) * r))) ∧
    (∀ m r w : ℚ, 0 ≤ combined_score m r w ∧ combined_score m r w ≤ 100) := by
  refine ⟨by norm_num [combined_score], by norm_num [combined_score],
    fun m r w => rfl, fun m r w => ⟨le_max_left _ _, ?_⟩⟩
  exact max_le (by norm_num) (min_le_left _ _)

/-- C7: the discretization used for each clause is a pure total function
of the score, high from 66 upward, medium from 33 up to below 66, low
below 33, the lower bound of each band inclusive; and the pipeline labels
every produced clause record with exactly this function of its score. -/
theorem C7_categorize :
    (∀ s : ℚ,
      (66 ≤ s → categorize s = "high") ∧
      (33 ≤ s ∧ s < 66 → categorize s = "medium") ∧
      (s < 33 → categorize s = "low")) ∧
    categorize 66 = "high" ∧ categorize (65999 / 1000) = "medium" ∧
    categorize 33 = "medium" ∧ categorize (32999 / 1000) = "low" ∧
    (∀ c r, clause_to_record c = .ok r → r.risk = categorize r.score) := by
  refine ⟨fun s => ⟨?_, ?_, ?_⟩, by norm_num [categorize], by norm_num [categorize],
    by norm_num [categorize], by norm_num [categorize], ?_⟩
  · intro h
    simp only [categorize, ge_iff_le, h, if_true]
  · intro h
    have h1 : ¬ (s ≥ 66) := by linarith [h.2]
    simp only [categorize, ge_iff_le] at h1 ⊢
    rw [if_neg h1, if_pos h.1]
  · intro h
    have h1 : ¬ (s ≥ 66) := by linarith
    have h2 : ¬ (s ≥ 33) := by linarith
    simp only [categorize, ge_iff_le] at h1 h2 ⊢
    rw [if_neg h1, if_neg h2]
  · intro c r h
    cases c with
    | obj kvs =>
      simp only [clause_to_record] at h
      set sv := (pyGet kvs "llm_score").getD Json.null with hsv
      by_cases hn : sv.isNull
      · simp only [hn, if_true, pure, Except.pure, Except.bind] at h
        cases h
        rfl
      · simp only [hn, if_false, Bool.false_eq_true] at h
        cases hf : pyFloat sv with
        | error e => rw [hf] at h; simp [Except.bind] at h
        | ok llm =>
          rw [hf] at h
          simp only [Except.bind] at h
          cases h
          rfl
    | null => exact Except.noConfusion h
    | bool b => exact Except.noConfusion h
    | num q => exact Except.noConfusion h
    | str s => exact Except.noConfusion h
    | arr xs => exact Except.noConfusion h

/-- C7 witness: the band facts instantiated at concrete scores. -/
theorem C7_categorize_witness :
    categorize 70 = "high" ∧ categorize 40 = "medium" ∧ categorize 10 = "low" :=
  ⟨(C7_categorize.1 70).1 (by norm_num),
   (C7_categorize.1 40).2.1 ⟨by norm_num, by norm_num⟩,
   (C7_categorize.1 10).2.2 (by norm_num)⟩

/-- C10: the extractor encodes failure as Python None, while JSON null
also decodes to None; the input consisting of the word null parses
successfully yet produces the same value the failure path produces, so a
caller cannot tell a successfully extracted null from a failed
extraction. -/
theorem C10_null_indistinguishable :
    jsonLoads ("null") = .ok Json.null ∧
    safe_parse_json ("null") = Json.null ∧
    jsonLoads ("no json here at all") = .error "Expecting value" ∧
    safe_parse_json ("no json here at all") = Json.null ∧
    safe_parse_json ("null") = safe_parse_json ("no json here at all") :=
  ⟨rfl, rfl, rfl, rfl, rfl⟩

/-- C2 counterexample: a whole-text parse that succeeds with a JSON array
is returned as is, so the extractor does return a successful (non-None)
value that is not a mapping, against the claim. -/
theorem C2_counterexample :
    safe_parse_json ("[1, 2]") = Json.arr [Json.num 1, Json.num 2] ∧
    Json.arr [Json.num 1, Json.num 2] ≠ Json.null ∧
    (∀ kvs, Json.arr [Json.num 1, Json.num 2] ≠ Json.obj kvs) :=
  ⟨rfl, by simp, fun kvs => by simp⟩

/-- One unfolding step of the parser in value mode on a nonempty input. -/
theorem parseF_value_cons (f : ℕ) (c : Char) (r : List Char) :
    parseF (f + 1) .value (c :: r) =
      (if c = lbrace then parseF f .objStart (skipWs r)
       else if c = '[' then parseF f .arrStart (skipWs r)
       else if c = '"' then
         match parseStr r with
         | .error e => .error e
         | .ok (s, rest) => .ok (.val (Json.str s), rest)
       else if c = 'n' then
         match r with
         | 'u' :: 'l' :: 'l' :: rest => .ok (.val Json.null, rest)
         | _ => .error "Expecting value"
       else if c = 't' then
         match r with
         | 'r' :: 'u' :: 'e' :: rest => .ok (.val (Json.bool true), rest)
         | _ => .error "Expecting value"
       else if c = 'f' then
         match r with
         | 'a' :: 'l' :: 's' :: 'e' :: rest => .ok (.val (Json.bool false), rest)
         | _ => .error "Expecting value"
       else if c = '-' ∨ c.isDigit then
         match parseNumber (c :: r) with
         | .error e => .error e
         | .ok (q, rest) => .ok (.val (Json.num q), rest)
       else .error "Expecting value") := rfl

/-- One unfolding step of the parser in object-start mode. -/
theorem parseF_objStart_cons (f : ℕ) (c : Char) (rest : List Char) :
    parseF (f + 1) .objStart (c :: rest) =
      (if c = rbrace then .ok (.val (Json.obj []), rest)
       else
         match parseF f .objItems (c :: rest) with
         | .error e => .error e
         | .ok (.pairs ps, r2) => .ok (.val (Json.obj (buildDict ps)), r2)
         | .ok (_, _) => .error "Invalid parser state") := rfl

/-- One unfolding step of the parser in object-items mode. -/
theorem parseF_objItems_cons (f : ℕ) (c : Char) (r : List Char) :
    parseF (f + 1) .objItems (c :: r) =
      (if c = '"' then
        match parseStr r with
        | .error e => .error e
        | .ok (k, r1) =>
          match skipWs r1 with
          | [] => .error "Expecting colon"
          | d0 :: r2 =>
            if d0 = ':' then
              match parseF f .value (skipWs r2) with
              | .error e => .error e
              | .ok (.val v, r3) =>
                match skipWs r3 with
                | d :: r4 =>
                  if d = rbrace then .ok (.pairs [(k, v)], r4)
                  else if d = ',' then
                    match parseF f .objItems (skipWs r4) with
                    | .error e => .error e
                    | .ok (.pairs ps, r5) => .ok (.pairs ((k, v) :: ps), r5)
                    | .ok (_, _) => .error "Invalid parser state"
                  else .error "Expecting delimiter"
                | [] => .error "Expecting delimiter"
              | .ok (_, _) => .error "Invalid parser state"
            else .error "Expecting colon"
       else .error "Expecting property name") := rfl

/-- One unfolding step of the parser in array-start mode. -/
theorem parseF_arrStart_cons (f : ℕ) (c : Char) (rest : List Char) :
    parseF (f + 1) .arrStart (c :: rest) =
      (if c = ']' then .ok (.val (Json.arr []), rest)
       else
         match parseF f .arrItems (c :: rest) with
         | .error e => .error e
         | .ok (.items vs, r2) => .ok (.val (Json.arr vs), r2)
         | .ok (_, _) => .error "Invalid parser state") := rfl

/-- One unfolding step of the parser in array-items mode. -/
theorem parseF_arrItems_eq (f : ℕ) (l : List Char) :
    parseF (f + 1) .arrItems l =
      (match parseF f .value l with
       | .error e => .error e
       | .ok (.val v, r) =>
         match skipWs r with
         | [] => .error "Expecting delimiter"
         | d :: r2 =>
           if d = ']' then .ok (.items [v], r2)
           else if d = ',' then
             match parseF f .arrItems (skipWs r2) with
             | .error e => .error e
             | .ok (.items vs, r3) => .ok (.items (v :: vs), r3)
             | .ok (_, _) => .error "Invalid parser state"
           else .error "Expecting delimiter"
       | .ok (_, _) => .error "Invalid parser state") := rfl

/-- Mode objStart only ever produces an object value. -/
theorem parseF_objStart_obj (f : ℕ) (l r : List Char) (v : Json)
    (h : parseF f .objStart l = .ok (.val v, r)) : ∃ kvs, v = Json.obj kvs := by
  match f, l with
  | 0, l => exact Except.noConfusion h
  | f + 1, [] => exact Except.noConfusion h
  | f + 1, c :: rest =>
    rw [parseF_objStart_cons] at h
    by_cases hc : c = rbrace
    · rw [if_pos hc] at h
      cases h
      exact ⟨[], rfl⟩
    · rw [if_neg hc] at h
      cases hp : parseF f .objItems (c :: rest) with
      | error e => rw [hp] at h; exact Except.noConfusion h
      | ok out =>
        rw [hp] at h
        obtain ⟨po, r2⟩ := out
        cases po with
        | val w => exact Except.noConfusion h
        | items vs => exact Except.noConfusion h
        | pairs ps =>
          simp only at h
          cases h
          exact ⟨buildDict ps, rfl⟩

/-- A json parse of input whose first character is the opening brace can
only produce an object. -/
theorem jsonLoadsL_lbrace_obj (rest : List Char) (v : Json)
    (h : jsonLoadsL (lbrace :: rest) = .ok v) : ∃ kvs, v = Json.obj kvs := by
  simp only [jsonLoadsL] at h
  have hskip : skipWs (lbrace :: rest) = lbrace :: rest := rfl
  rw [hskip] at h
  have h3 : 3 * (lbrace :: rest).length + 3 = (3 * (lbrace :: rest).length + 2) + 1 := rfl
  rw [h3, parseF_value_cons, if_pos rfl] at h
  cases hp : parseF (3 * (lbrace :: rest).length + 2) .objStart (skipWs rest) with
  | error e => rw [hp] at h; exact Except.noConfusion h
  | ok out =>
    rw [hp] at h
    obtain ⟨po, r2⟩ := out
    cases po with
    | val w =>
      obtain ⟨kvs, hk⟩ := parseF_objStart_obj _ _ _ _ hp
      simp only at h
      split at h
      · cases h
        exact ⟨kvs, hk⟩
      · exact Except.noConfusion h
    | items vs => exact Except.noConfusion h
    | pairs ps => exact Except.noConfusion h

/-- A found index points at an element satisfying the predicate: the list
from that index on starts with a witness. -/
theorem firstIdx_drop_cons (p : Char → Bool) :
    ∀ (l : List Char) (i : ℕ), firstIdx p l = some i →
      ∃ a r, l.drop i = a :: r ∧ p a = true := by
  intro l
  induction l with
  | nil => intro i h; exact Option.noConfusion h
  | cons b bs ih =>
    intro i h
    simp only [firstIdx] at h
    by_cases hb : p b
    · rw [if_pos hb] at h
      cases h
      exact ⟨b, bs, rfl, hb⟩
    · rw [if_neg hb] at h
      cases hx : firstIdx p bs with
      | none => rw [hx] at h; exact Option.noConfusion h
      | some k =>
        rw [hx] at h
        have hik : k + 1 = i := by simpa using h
        obtain ⟨a, r, hd, hp⟩ := ih k hx
        exact ⟨a, r, by simp [← hik, hd], hp⟩

/-- A found str.index result points at an occurrence: the list from the
returned index on starts with the sought character. -/
theorem strIndex_ok_drop (l : List Char) (c : Char) (i : ℕ)
    (h : strIndex l c = .ok i) : ∃ r, l.drop i = c :: r := by
  have hfi : firstIdx (· = c) l = some i := by
    simp only [strIndex] at h
    cases hf : firstIdx (· = c) l with
    | none => rw [hf] at h; exact Except.noConfusion h
    | some k => rw [hf] at h; cases h; rfl
  obtain ⟨a, r, hd, hpa⟩ := firstIdx_drop_cons _ _ _ hfi
  have ha : a = c := by simpa using hpa
  subst ha
  exact ⟨r, hd⟩

/-- When the first-brace index is found, a successful parse of the
brace-to-brace slice is necessarily an object: the slice starts with the
opening brace. -/
theorem fallback_ok_obj (t : String) (i j : ℕ) (v : Json)
    (hi : strIndex t.data lbrace = .ok i)
    (hp : jsonLoadsL (pySlice t.data i (j + 1)) = .ok v) :
    ∃ kvs, v = Json.obj kvs := by
  obtain ⟨r, hd⟩ := strIndex_ok_drop _ _ _ hi
  cases hn : j + 1 - i with
  | zero =>
    rw [pySlice, hn, hd] at hp
    exact Except.noConfusion hp
  | succ k =>
    rw [pySlice, hn, hd] at hp
    exact jsonLoadsL_lbrace_obj _ _ hp

/-- A whole-text parse success is returned unchanged by the extractor. -/
theorem safe_parse_json_of_ok (t : String) (v : Json)
    (h : jsonLoads t = .ok v) : safe_parse_json t = v := by
  simp only [safe_parse_json, safe_parse_json_exc, tryExcept, h]

/-- In the error case of the whole-text parse, the extractor is the
brace-to-brace fallback chain with its own exceptions turned into None. -/
theorem safe_parse_json_of_err (t : String) (e : String)
    (h : jsonLoads t = .error e) :
    safe_parse_json t =
      (match braceFallback t with
       | .error _ => Json.null
       | .ok v => v) := by
  simp only [safe_parse_json, safe_parse_json_exc, tryExcept, h]
  cases braceFallback t with
  | error e2 => rfl
  | ok v => rfl

/-- The fallback chain split into its three raising steps. -/
theorem braceFallback_cases (t : String) :
    (∃ e, strIndex t.data lbrace = .error e ∧ braceFallback t = .error e) ∨
    (∃ i e, strIndex t.data lbrace = .ok i ∧
      strRIndex t.data rbrace = .error e ∧ braceFallback t = .error e) ∨
    (∃ i j, strIndex t.data lbrace = .ok i ∧ strRIndex t.data rbrace = .ok j ∧
      braceFallback t = jsonLoadsL (pySlice t.data i (j + 1))) := by
  cases hi : strIndex t.data lbrace with
  | error e => exact Or.inl ⟨e, rfl, by simp [braceFallback, hi]⟩
  | ok i =>
    cases hj : strRIndex t.data rbrace with
    | error e =>
      exact Or.inr (Or.inl ⟨i, e, rfl, rfl, by simp [braceFallback, hi, hj]⟩)
    | ok j =>
      exact Or.inr (Or.inr ⟨i, j, rfl, rfl, by simp [braceFallback, hi, hj]⟩)

/-- C2 amended: the extractor is two-outcome only up to type: it returns
None (Json.null) on failure, otherwise either the whole-text parse value,
which can be of any JSON type (a list, number, string, boolean or null),
or, through the brace fallback, necessarily a mapping. -/
theorem C2_amended :
    ∀ t : String,
      safe_parse_json t = Json.null ∨
      jsonLoads t = .ok (safe_parse_json t) ∨
      ∃ kvs, safe_parse_json t = Json.obj kvs := by
  intro t
  cases hl : jsonLoads t with
  | ok v =>
    right; left
    rw [safe_parse_json_of_ok t v hl]
  | error e =>
    rw [safe_parse_json_of_err t e hl]
    rcases braceFallback_cases t with ⟨e2, _, hb⟩ | ⟨i, e2, _, _, hb⟩ |
      ⟨i, j, hi, hj, hb⟩
    · left; rw [hb]
    · left; rw [hb]
    · rw [hb]
      cases hp : jsonLoadsL (pySlice t.data i (j + 1)) with
      | error e2 => left; rfl
      | ok v =>
        right; right
        obtain ⟨kvs, hk⟩ := fallback_ok_obj t i j v hi hp
        exact ⟨kvs, by rw [hk]⟩

/-- The fallback step of the extractor exactly as the specification words
it, for comparison with the code: find the first opening brace and the
last closing brace; if both exist and the opening index precedes the
closing one, parse the inclusive substring; a successful parse to a
mapping is returned, anything else is Failure (None). -/
def spec_extract_fallback (t : String) : Json :=
  match strIndex t.data lbrace, strRIndex t.data rbrace with
  | .ok i, .ok j =>
    if i < j then
      match jsonLoadsL (pySlice t.data i (j + 1)) with
      | .ok (Json.obj kvs) => Json.obj kvs
      | _ => Json.null
    else Json.null
  | _, _ => Json.null

/-- The prose-wrapped example input of the specification. -/
def exC3 : String :=
  "Sure! Here is the JSON: \x7b\"a\": 1, \"b\": [1,2]\x7d Hope that helps."

/-- C3: whenever whole-text parsing fails, the extractor behaves exactly
as the specification words the fallback: parse the substring from the
first opening brace to the last closing brace inclusive, succeed with
that mapping or fail; and the three spec examples hold: the prose-wrapped
object extracts to its mapping, text without json fails, and a truncated
unbalanced object fails. -/
theorem C3_brace_fallback :
    (∀ t e, jsonLoads t = .error e →
      safe_parse_json t = spec_extract_fallback t) ∧
    safe_parse_json exC3 =
      Json.obj [("a", Json.num 1), ("b", Json.arr [Json.num 1, Json.num 2])] ∧
    safe_parse_json ("no json here at all") = Json.null ∧
    safe_parse_json ("\x7b\"a\": 1") = Json.null := by
  refine ⟨?_, by rfl, by rfl, by rfl⟩
  intro t e h
  rw [safe_parse_json_of_err t e h]
  rcases braceFallback_cases t with ⟨e2, hi, hb⟩ | ⟨i, e2, hi, hj, hb⟩ |
    ⟨i, j, hi, hj, hb⟩
  · rw [hb]
    simp [spec_extract_fallback, hi]
  · rw [hb]
    simp [spec_extract_fallback, hi, hj]
  · rw [hb]
    cases hp : jsonLoadsL (pySlice t.data i (j + 1)) with
    | error e2 =>
      simp only [spec_extract_fallback, hi, hj]
      by_cases hij : i < j
      · rw [if_pos hij, hp]
      · rw [if_neg hij]
    | ok v =>
      obtain ⟨kvs, hk⟩ := fallback_ok_obj t i j v hi hp
      subst hk
      obtain ⟨r, hd⟩ := strIndex_ok_drop _ _ _ hi
      have hij : i < j := by
        by_contra hn
        have h1 : j + 1 - i ≤ 1 := by omega
        rcases Nat.le_one_iff_eq_zero_or_eq_one.mp h1 with h0 | h0
        · rw [pySlice, hd, h0] at hp
          exact Except.noConfusion hp
        · rw [pySlice, hd, h0] at hp
          exact Except.noConfusion hp
      simp only [spec_extract_fallback, hi, hj]
      rw [if_pos hij, hp]

/-- C3 witness: the fallback equivalence applied at a concrete failing
input. -/
theorem C3_brace_fallback_witness :
    jsonLoads ("no json here at all") = .error "Expecting value" ∧
    safe_parse_json ("no json here at all") =
      spec_extract_fallback ("no json here at all") :=
  ⟨rfl, C3_brace_fallback.1 ("no json here at all") "Expecting value" rfl⟩

/-- C4: the extractor never lets an exception reach its caller: for every
input string the exception-visible body resolves to an ok result, the
one safe_parse_json returns (termination is intrinsic: the model parser
is a total function). -/
theorem C4_no_raise :
    ∀ t : String, safe_parse_json_exc t = .ok (safe_parse_json t) := by
  intro t
  simp only [safe_parse_json, safe_parse_json_exc, tryExcept]
  cases jsonLoads t with
  | ok v => rfl
  | error e =>
    cases braceFallback t with
    | ok v => rfl
    | error e2 => rfl

/-- A model response whose one clause carries a zero model risk estimate
and three high-severity keywords in its original text. -/
def exC1 : String :=
  "\x7b\"summary\": \"s\", \"clauses\": [\x7b\"original\": \"penalty indemnify arbitration\", \"llm_score\": 0\x7d]\x7d"

/-- C1 counterexample: on a concrete document the pipeline emits the
clause with score 0, the raw model estimate, although the composite of
model estimate 0 and rule score 100 under weight 0.6 is 40; the
combine step (and the rule engine) is never invoked by
summarize_document, so the produced score is not the composite score. -/
theorem C1_counterexample :
    (summarize_document exC1 ("fb") ("corpus")).clauses =
      [{ original := Json.str "penalty indemnify arbitration"
         simplified := Json.str ""
         risk := "low"
         score := 0
         provenance := Json.arr [] }] ∧
    rule_score_for_clause ("penalty indemnify arbitration") = 100 ∧
    combined_score 0 (rule_score_for_clause ("penalty indemnify arbitration")) = 40 ∧
    (0 : ℚ) ≠ 40 := by
  have hr : rule_score_for_clause ("penalty indemnify arbitration") = 100 := by
    rw [rule_score_closed_form]
    have hh : RISK_KEYWORDS_high.countP
        (fun kw => reSearch kw ("penalty indemnify arbitration".data.map Char.toLower)) = 3 := by
      decide
    have hm : RISK_KEYWORDS_medium.countP
        (fun kw => reSearch kw ("penalty indemnify arbitration".data.map Char.toLower)) = 0 := by
      decide
    rw [hh, hm]
    norm_num
  refine ⟨by rfl, hr, ?_, by norm_num⟩
  rw [hr]
  norm_num [combined_score]

/-- C1 amended: each produced clause record carries as its score exactly
the externally supplied model risk estimate (50 when the estimate is
missing or null), and as its risk the discretization of that estimate;
the composite of the risk engine plays no part. -/
theorem C1_amended :
    ∀ kvs r, clause_to_record (Json.obj kvs) = .ok r →
      r.risk = categorize r.score ∧
      (((pyGet kvs "llm_score").getD Json.null).isNull = true → r.score = 50) ∧
      (∀ q, (pyGet kvs "llm_score").getD Json.null = Json.num q → r.score = q) := by
  intro kvs r h
  simp only [clause_to_record] at h
  by_cases hn : ((pyGet kvs "llm_score").getD Json.null).isNull
  · simp only [hn, if_true] at h
    cases h
    refine ⟨rfl, fun _ => rfl, fun q hq => ?_⟩
    rw [hq] at hn
    exact absurd hn (by simp [Json.isNull])
  · simp only [hn, Bool.false_eq_true, if_false] at h
    cases hf : pyFloat ((pyGet kvs "llm_score").getD Json.null) with
    | error e => rw [hf] at h; exact Except.noConfusion h
    | ok llm =>
      rw [hf] at h
      simp only at h
      cases h
      refine ⟨rfl, fun hnn => absurd hnn hn, fun q hq => ?_⟩
      rw [hq] at hf
      simp only [pyFloat] at hf
      cases hf
      rfl

/-- C1 amended witness: a clause with an explicit numeric estimate keeps
that estimate as its score and is labelled by its discretization. -/
theorem C1_amended_witness :
    ({ original := Json.str ""
       simplified := Json.str ""
       risk := "low"
       score := 7
       provenance := Json.arr [] } : ClauseOut).risk =
      categorize ({ original := Json.str ""
                    simplified := Json.str ""
                    risk := "low"
                    score := 7
                    provenance := Json.arr [] } : ClauseOut).score ∧
    ({ original := Json.str ""
       simplified := Json.str ""
       risk := "low"
       score := 7
       provenance := Json.arr [] } : ClauseOut).score = 7 :=
  ⟨(C1_amended [("llm_score", Json.num 7)] _ rfl).1,
   (C1_amended [("llm_score", Json.num 7)] _ rfl).2.2 7 rfl⟩

/-- A model response whose one clause carries a non-numeric model risk
estimate (the string high). -/
def exC8 : String :=
  "\x7b\"summary\": \"x\", \"clauses\": [\x7b\"llm_score\": \"high\"\x7d]\x7d"

/-- C8 counterexample: a clause whose model risk estimate is the
non-numeric string high does not get the neutral default 50; the float
conversion raises, the document-level handler absorbs it, and the whole
summary collapses to the failure record with no clause records at all. -/
theorem C8_counterexample :
    pyFloat (Json.str "high") = .error "ValueError" ∧
    summarize_document exC8 ("fb") ("corpus") = failureSummary ("corpus") ∧
    (summarize_document exC8 ("fb") ("corpus")).clauses = [] :=
  ⟨rfl, rfl, rfl⟩

/-- C8 amended: an omitted or null model risk estimate is replaced by the
neutral default 50 and the clause record is still produced; a
non-numeric estimate raises inside the loop, and the document-level
handler turns any such exception into the failure summary, so no
exception reaches the caller. -/
theorem C8_amended :
    (∀ kvs, ((pyGet kvs "llm_score").getD Json.null).isNull = true →
      clause_to_record (Json.obj kvs) =
        .ok { original := (pyGet kvs "original").getD (Json.str "")
              simplified := (pyGet kvs "simplified").getD (Json.str "")
              risk := categorize 50
              score := 50
              provenance := (pyGet kvs "provenance").getD (Json.arr []) }) ∧
    (∀ mt fb c e, summarize_document_exc mt fb c = .error e →
      summarize_document mt fb c = failureSummary c) := by
  constructor
  · intro kvs h
    simp only [clause_to_record, h, if_true]
  · intro mt fb c e h
    simp only [summarize_document, h]

/-- C8 amended witness: a clause without the estimate gets score 50, and
the concrete malformed document resolves to the failure summary. -/
theorem C8_amended_witness :
    clause_to_record (Json.obj []) =
      .ok { original := Json.str ""
            simplified := Json.str ""
            risk := categorize 50
            score := 50
            provenance := Json.arr [] } ∧
    summarize_document exC8 ("fb") ("corpus") = failureSummary ("corpus") :=
  ⟨C8_amended.1 [] rfl, C8_amended.2 exC8 ("fb") ("corpus") "ValueError" rfl⟩

/-- The character for a value below sixteen, decimal digits then lower
case letters. -/
def hexDig (n : ℕ) : Char :=
  if n < 10 then Char.ofNat ('0'.toNat + n) else Char.ofNat ('a'.toNat + (n - 10))

/-- The decimal digits of a natural number, most significant first. -/
def natDigs (n : ℕ) : List Char :=
  if _h : n < 10 then [hexDig n]
  else natDigs (n / 10) ++ [hexDig (n % 10)]
  decreasing_by exact Nat.div_lt_self (by omega) (by norm_num)

/-- The decimal digits of an integer with an optional leading minus. -/
def intDump (z : ℤ) : List Char :=
  if z < 0 then '-' :: natDigs (-z).toNat else natDigs z.toNat

/-- The serialization of an exact decimal rational as a json number: the
integer itself when the denominator is one, otherwise the scaled integer
mantissa with a negative power-of-ten exponent. -/
def decDump (q : ℚ) : List Char :=
  if q.den = 1 then intDump q.num
  else intDump (q * (10 : ℚ) ^ q.den).num ++ 'e' :: '-' :: natDigs q.den

/-- The json escape of one character: quote and backslash escaped, control
characters as a four-digit backslash-u escape, everything else literal
(the non-ascii-escaping flavour of serialization). -/
def escChar (c : Char) : List Char :=
  if c = '"' then ['\\', '"']
  else if c = '\\' then ['\\', '\\']
  else if c.toNat < 0x20 then
    ['\\', 'u', '0', '0', hexDig (c.toNat / 16), hexDig (c.toNat % 16)]
  else [c]

/-- The escaped body of a serialized string. -/
def escList : List Char → List Char
  | [] => []
  | c :: r => escChar c ++ escList r

/-- A serialized json string: quote, escaped body, quote. -/
def dumpStr (s : String) : List Char := '"' :: escList s.data ++ ['"']

mutual

/-- Python's json.dumps (default separators: comma-space and
colon-space), producing the character list of the serialization. -/
def dumpJ : Json → List Char
  | .null => 'n' :: 'u' :: 'l' :: 'l' :: []
  | .bool true => 't' :: 'r' :: 'u' :: 'e' :: []
  | .bool false => 'f' :: 'a' :: 'l' :: 's' :: 'e' :: []
  | .num q => decDump q
  | .str s => dumpStr s
  | .arr xs => '[' :: (dumpItems xs ++ [']'])
  | .obj kvs => lbrace :: (dumpPairs kvs ++ [rbrace])

/-- The serialized elements of an array, comma-space separated. -/
def dumpItems : List Json → List Char
  | [] => []
  | [x] => dumpJ x
  | x :: y :: ys => dumpJ x ++ ',' :: ' ' :: dumpItems (y :: ys)

/-- The serialized pairs of an object, comma-space separated, colon-space
between key and value. -/
def dumpPairs : List (String × Json) → List Char
  | [] => []
  | [(k, v)] => dumpStr k ++ ':' :: ' ' :: dumpJ v
  | (k, v) :: p :: ps => dumpStr k ++ ':' :: ' ' :: dumpJ v ++ ',' :: ' ' :: dumpPairs (p :: ps)

end

/-- Python's json.dumps as a string. -/
def dumps (v : Json) : String := String.mk (dumpJ v)

/-- An exact decimal rational: an integer over a power of ten.  Every
number the json parser can produce has this shape. -/
def numOK (q : ℚ) : Prop := ∃ (n : ℤ) (k : ℕ), q = (n : ℚ) / 10 ^ k

/-- Values in the image of the parser: numbers are exact decimals and
object keys are distinct (Python dict keys). -/
inductive JsonWF : Json → Prop where
  | null : JsonWF .null
  | bool (b : Bool) : JsonWF (.bool b)
  | num (q : ℚ) : numOK q → JsonWF (.num q)
  | str (s : String) : JsonWF (.str s)
  | arr (xs : List Json) : (∀ x ∈ xs, JsonWF x) → JsonWF (.arr xs)
  | obj (kvs : List (String × Json)) : (kvs.map Prod.fst).Nodup →
      (∀ p ∈ kvs, JsonWF p.2) → JsonWF (.obj kvs)

/-- Well-formedness of a parser intermediate result. -/
def POutWF : POut → Prop
  | .val v => JsonWF v
  | .items vs => ∀ v ∈ vs, JsonWF v
  | .pairs ps => ∀ p ∈ ps, JsonWF p.2

mutual

/-- Fuel sufficient for the parser to consume the serialization of a
value in value mode. -/
def fuelNeed : Json → ℕ
  | .null => 1
  | .bool _ => 1
  | .num _ => 1
  | .str _ => 1
  | .arr xs => 2 + itemsNeed xs
  | .obj kvs => 2 + pairsNeed kvs

/-- Fuel sufficient for the array-items loop over the serialized
elements. -/
def itemsNeed : List Json → ℕ
  | [] => 0
  | x :: xs => 1 + max (fuelNeed x) (itemsNeed xs)

/-- Fuel sufficient for the object-items loop over the serialized
pairs. -/
def pairsNeed : List (String × Json) → ℕ
  | [] => 0
  | (_, v) :: ps => 1 + max (fuelNeed v) (pairsNeed ps)

end

/-- The character lists that may legally follow a serialized number in a
serialized document: nothing, or a delimiter. -/
def Stop (l : List Char) : Prop :=
  match l with
  | [] => True
  | c :: _ => c = ',' ∨ c = ']' ∨ c = rbrace

theorem digVal_hexDig (n : ℕ) (h : n < 10) : digVal (hexDig n) = n := by
  interval_cases n <;> decide

theorem hexDig_isDigit (n : ℕ) (h : n < 10) : (hexDig n).isDigit = true := by
  interval_cases n <;> decide

theorem hexDig_ne_zero (n : ℕ) (h1 : 1 ≤ n) (h2 : n < 10) : hexDig n ≠ '0' := by
  interval_cases n <;> decide

theorem hexVal_hexDig (n : ℕ) (h : n < 16) : hexVal (hexDig n) = some n := by
  interval_cases n <;> decide

/-- The digit list of a natural number is nonempty, starts with a digit,
and starts with the zero digit only for zero itself. -/
theorem natDigs_cons (n : ℕ) :
    ∃ c r, natDigs n = c :: r ∧ c.isDigit = true ∧ (c = '0' → n = 0) := by
  induction n using Nat.strong_induction_on with
  | _ n ih =>
    rw [natDigs]
    by_cases h : n < 10
    · rw [dif_pos h]
      refine ⟨hexDig n, [], rfl, hexDig_isDigit n h, fun hc => ?_⟩
      by_contra hz
      exact hexDig_ne_zero n (by omega) h hc
    · rw [dif_neg h]
      obtain ⟨c, r, hd, hdig, hz⟩ := ih (n / 10) (Nat.div_lt_self (by omega) (by norm_num))
      refine ⟨c, r ++ [hexDig (n % 10)], by rw [hd]; rfl, hdig, fun hc => ?_⟩
      have := hz hc
      omega

/-- Every character of a digit list is a digit. -/
theorem natDigs_digits (n : ℕ) : ∀ c ∈ natDigs n, c.isDigit = true := by
  induction n using Nat.strong_induction_on with
  | _ n ih =>
    rw [natDigs]
    by_cases h : n < 10
    · rw [dif_pos h]
      intro c hc
      simp only [List.mem_singleton] at hc
      rw [hc]
      exact hexDig_isDigit n h
    · rw [dif_neg h]
      intro c hc
      rcases List.mem_append.mp hc with hc1 | hc2
      · exact ih (n / 10) (Nat.div_lt_self (by omega) (by norm_num)) c hc1
      · simp only [List.mem_singleton] at hc2
        rw [hc2]
        exact hexDig_isDigit (n % 10) (Nat.mod_lt n (by norm_num))

theorem digsVal_append_single (l : List Char) (d : Char) :
    digsVal (l ++ [d]) = 10 * digsVal l + digVal d := by
  simp [digsVal, List.foldl_append]

/-- The digit list of a natural number denotes that number. -/
theorem digsVal_natDigs (n : ℕ) : digsVal (natDigs n) = n := by
  induction n using Nat.strong_induction_on with
  | _ n ih =>
    rw [natDigs]
    by_cases h : n < 10
    · rw [dif_pos h]
      show digsVal [hexDig n] = n
      simp [digsVal, digVal_hexDig n h]
    · rw [dif_neg h]
      rw [digsVal_append_single,
        ih (n / 10) (Nat.div_lt_self (by omega) (by norm_num)),
        digVal_hexDig (n % 10) (Nat.mod_lt n (by norm_num))]
      omega

/-- Whether a list does not begin with a decimal digit. -/
def noDigitHead (l : List Char) : Prop :=
  match l with
  | [] => True
  | c :: _ => ¬ c.isDigit = true

/-- Taking digits from a digit run followed by a non-digit boundary
yields exactly the run. -/
theorem takeDigits_append (d rest : List Char)
    (hd : ∀ c ∈ d, c.isDigit = true) (hr : noDigitHead rest) :
    takeDigits (d ++ rest) = (d, rest) := by
  induction d with
  | nil =>
    cases rest with
    | nil => rfl
    | cons c r =>
      simp only [noDigitHead] at hr
      simp [takeDigits, hr]
  | cons c cs ih =>
    have hc : c.isDigit = true := hd c (by simp)
    have ih2 := ih (fun x hx => hd x (by simp [hx]))
    simp only [List.cons_append, takeDigits, hc, if_true, List.append_eq, ih2]

theorem stop_noDigitHead (l : List Char) (h : Stop l) : noDigitHead l := by
  cases l with
  | nil => trivial
  | cons c r =>
    rcases h with h | h | h <;> subst h
    · exact (by decide : ¬ (','.isDigit = true))
    · exact (by decide : ¬ (']'.isDigit = true))
    · exact (by decide : ¬ (rbrace.isDigit = true))

/-- The integer part of a serialized natural followed by a non-digit
boundary parses back to that natural. -/
theorem parseIntPart_natDigs (n : ℕ) (rest : List Char) (h : noDigitHead rest) :
    parseIntPart (natDigs n ++ rest) = .ok (n, rest) := by
  obtain ⟨c, r, hd, hdig, hz⟩ := natDigs_cons n
  rw [hd]
  by_cases hc : c = '0'
  · have hn : n = 0 := hz hc
    subst hn
    have : natDigs 0 = ['0'] := by rw [natDigs]; decide
    rw [this] at hd
    cases hd
    simp [parseIntPart]
  · simp only [List.cons_append, parseIntPart, if_neg hc, hdig, if_true]
    have hdall : ∀ x ∈ c :: r, x.isDigit = true := by
      rw [← hd]
      exact natDigs_digits n
    have htake : takeDigits ((c :: r) ++ rest) = (c :: r, rest) :=
      takeDigits_append _ _ hdall h
    simp only [List.cons_append] at htake
    rw [htake]
    have : digsVal (c :: r) = n := by rw [← hd]; exact digsVal_natDigs n
    rw [this]

theorem parseFrac_stop (l : List Char) (h : Stop l) : parseFrac l = ([], l) := by
  cases l with
  | nil => rfl
  | cons c r => rcases h with h | h | h <;> subst h <;> rfl

theorem parseExp_stop (l : List Char) (h : Stop l) : parseExp l = (0, l) := by
  cases l with
  | nil => rfl
  | cons c r => rcases h with h | h | h <;> subst h <;> rfl

theorem natDigs_head_not_minus (n : ℕ) :
    parseSign (natDigs n ++ rest) = (false, natDigs n ++ rest) := by
  obtain ⟨c, r, hd, hdig, _⟩ := natDigs_cons n
  rw [hd]
  have hc : ¬ c = '-' := by
    rintro rfl
    exact absurd hdig (by decide)
  simp [parseSign, hc]

/-- A serialized integer followed by a stop boundary parses back to the
same rational integer. -/
theorem parseNumber_intDump (z : ℤ) (rest : List Char) (hs : Stop rest) :
    parseNumber (intDump z ++ rest) = .ok ((z : ℚ), rest) := by
  have hnd : noDigitHead rest := stop_noDigitHead rest hs
  by_cases hz : z < 0
  · simp only [intDump, if_pos hz, List.cons_append, parseNumber]
    have hsign : parseSign ('-' :: (natDigs (-z).toNat ++ rest)) =
        (true, natDigs (-z).toNat ++ rest) := by
      simp [parseSign]
    rw [hsign]
    rw [parseIntPart_natDigs _ _ hnd]
    dsimp only
    rw [parseFrac_stop rest hs, parseExp_stop rest hs]
    simp only [List.length_nil, pow_zero, mul_one, digsVal, List.foldl_nil,
      Nat.add_zero, if_true, sciToRat]
    norm_num
    have hzz : (0 : ℚ) ≤ -(z : ℚ) := by
      have h0 : (0 : ℤ) ≤ -z := by omega
      exact_mod_cast h0
    rw [max_eq_left hzz]
    ring
  · simp only [intDump, if_neg hz, parseNumber, natDigs_head_not_minus]
    rw [parseIntPart_natDigs _ _ hnd]
    dsimp only
    rw [parseFrac_stop rest hs, parseExp_stop rest hs]
    simp only [List.length_nil, pow_zero, mul_one, digsVal, List.foldl_nil,
      Nat.add_zero, if_false, sciToRat]
    norm_num
    omega

/-- A divisor of a power of ten divides the power of ten with itself as
exponent: its two and five exponents are below their own powers. -/
theorem dvd_ten_pow_self {d k : ℕ} (h : d ∣ 10 ^ k) : d ∣ 10 ^ d := by
  have h10 : (10 : ℕ) ^ k = 2 ^ k * 5 ^ k := by
    rw [← Nat.mul_pow]
  rw [h10] at h
  obtain ⟨a, b, ha, hb, hab⟩ := exists_dvd_and_dvd_of_dvd_mul h
  obtain ⟨i, _, hai⟩ := (Nat.dvd_prime_pow Nat.prime_two).mp ha
  obtain ⟨j, _, hbj⟩ := (Nat.dvd_prime_pow Nat.prime_five).mp hb
  subst hai hbj hab
  have hi : i ≤ 2 ^ i * 5 ^ j := by
    have h1 : i < 2 ^ i := Nat.lt_two_pow i
    have h2 : 2 ^ i ≤ 2 ^ i * 5 ^ j :=
      Nat.le_mul_of_pos_right _ (pow_pos (by norm_num) j)
    omega
  have hj : j ≤ 2 ^ i * 5 ^ j := by
    have h1 : j < 2 ^ j := Nat.lt_two_pow j
    have h2 : 2 ^ j ≤ 5 ^ j := Nat.pow_le_pow_left (by norm_num) j
    have h3 : 5 ^ j ≤ 2 ^ i * 5 ^ j :=
      Nat.le_mul_of_pos_left _ (pow_pos (by norm_num) i)
    omega
  have hsplit : (10 : ℕ) ^ (2 ^ i * 5 ^ j) =
      2 ^ (2 ^ i * 5 ^ j) * 5 ^ (2 ^ i * 5 ^ j) := by
    rw [← Nat.mul_pow]
  rw [hsplit]
  exact mul_dvd_mul (pow_dvd_pow 2 hi) (pow_dvd_pow 5 hj)

/-- The denominator of an exact decimal divides ten to its own power. -/
theorem numOK_den_dvd (q : ℚ) (h : numOK q) : q.den ∣ 10 ^ q.den := by
  obtain ⟨n, k, hq⟩ := h
  have h1 : q = Rat.divInt n ((10 : ℤ) ^ k) := by
    rw [Rat.divInt_eq_div]
    rw [hq]
    norm_cast
  have h2 : ((q.den : ℤ)) ∣ ((10 : ℤ) ^ k) := by
    rw [h1]
    exact Rat.den_dvd n ((10 : ℤ) ^ k)
  have h3 : q.den ∣ 10 ^ k := by exact_mod_cast h2
  exact dvd_ten_pow_self h3

/-- Scaling an exact decimal by ten to its denominator gives an integer:
the numerator of the product casts back to the product. -/
theorem numOK_scaled_int (q : ℚ) (h : numOK q) :
    ((q * (10 : ℚ) ^ q.den).num : ℚ) = q * (10 : ℚ) ^ q.den := by
  obtain ⟨c, hc⟩ := numOK_den_dvd q h
  have h10 : ((10 : ℚ)) ^ q.den = ((q.den : ℚ)) * (c : ℚ) := by
    have hcast : ((10 ^ q.den : ℕ) : ℚ) = ((q.den * c : ℕ) : ℚ) := by rw [hc]
    push_cast at hcast
    exact hcast
  have hqd : q * (q.den : ℚ) = (q.num : ℚ) := by
    have hne : ((q.den : ℚ)) ≠ 0 := by
      exact_mod_cast q.den_nz
    nth_rewrite 1 [← Rat.num_div_den q]
    exact div_mul_cancel₀ _ hne
  have key : q * (10 : ℚ) ^ q.den = ((q.num * c : ℤ) : ℚ) := by
    calc q * (10 : ℚ) ^ q.den = q * ((q.den : ℚ) * c) := by rw [h10]
    _ = (q * (q.den : ℚ)) * c := by ring
    _ = (q.num : ℚ) * c := by rw [hqd]
    _ = ((q.num * c : ℤ) : ℚ) := by push_cast; ring
  rw [key, Rat.num_intCast]

theorem parseFrac_e (l : List Char) : parseFrac ('e' :: l) = ([], 'e' :: l) := rfl

theorem parseExp_e_neg (X : List Char) :
    parseExp ('e' :: '-' :: X) = parseExpDigits ('e' :: '-' :: X) X true := rfl

theorem parseExpDigits_natDigs (orig : List Char) (n : ℕ) (rest : List Char)
    (hs : Stop rest) :
    parseExpDigits orig (natDigs n ++ rest) true = (-(n : ℤ), rest) := by
  obtain ⟨c, r, hd, _, _⟩ := natDigs_cons n
  have htake : takeDigits (natDigs n ++ rest) = (natDigs n, rest) :=
    takeDigits_append _ _ (natDigs_digits n) (stop_noDigitHead rest hs)
  simp only [parseExpDigits, htake]
  rw [hd]
  dsimp only
  rw [← hd, digsVal_natDigs]
  simp

/-- What the number parser does on a serialized integer followed by an
arbitrary non-digit tail: the fraction and exponent parts are read from
the tail. -/
theorem parseNumber_intDump_tail (z : ℤ) (tail : List Char)
    (hnd : noDigitHead tail) :
    parseNumber (intDump z ++ tail) =
      .ok (sciToRat
            (if z < 0 then
              -((z.natAbs * 10 ^ (parseFrac tail).1.length +
                  digsVal (parseFrac tail).1 : ℕ) : ℤ)
            else
              ((z.natAbs * 10 ^ (parseFrac tail).1.length +
                  digsVal (parseFrac tail).1 : ℕ) : ℤ))
            ((parseExp (parseFrac tail).2).1 - (parseFrac tail).1.length),
           (parseExp (parseFrac tail).2).2) := by
  by_cases hz : z < 0
  · simp only [intDump, if_pos hz, List.cons_append, parseNumber]
    have hsign : parseSign ('-' :: (natDigs (-z).toNat ++ tail)) =
        (true, natDigs (-z).toNat ++ tail) := by simp [parseSign]
    rw [hsign, parseIntPart_natDigs _ _ hnd]
    dsimp only
    have habs : (-z).toNat = z.natAbs := by omega
    rw [habs]
    norm_num
  · simp only [intDump, if_neg hz, parseNumber, natDigs_head_not_minus]
    rw [parseIntPart_natDigs _ _ hnd]
    dsimp only
    have habs : z.toNat = z.natAbs := by omega
    rw [habs]
    norm_num

/-- A serialized exact decimal followed by a stop boundary parses back to
the same rational. -/
theorem parseNumber_decDump (q : ℚ) (rest : List Char) (h : numOK q)
    (hs : Stop rest) :
    parseNumber (decDump q ++ rest) = .ok (q, rest) := by
  by_cases hden : q.den = 1
  · rw [decDump, if_pos hden, parseNumber_intDump q.num rest hs,
      (Rat.den_eq_one_iff q).mp hden]
  · rw [decDump, if_neg hden]
    have hassoc : (intDump (q * (10 : ℚ) ^ q.den).num ++
        'e' :: '-' :: natDigs q.den) ++ rest =
        intDump (q * (10 : ℚ) ^ q.den).num ++
          ('e' :: '-' :: (natDigs q.den ++ rest)) := by
      simp [List.append_assoc]
    rw [hassoc]
    have hnd : noDigitHead ('e' :: '-' :: (natDigs q.den ++ rest)) :=
      (by decide : ¬ ('e'.isDigit = true))
    rw [parseNumber_intDump_tail _ _ hnd, parseFrac_e]
    dsimp only
    rw [parseExp_e_neg, parseExpDigits_natDigs _ _ _ hs]
    dsimp only
    simp only [List.length_nil]
    set m := (q * (10 : ℚ) ^ q.den).num with hm
    have hmant : (if m < 0 then -((m.natAbs * 10 ^ 0 + digsVal [] : ℕ) : ℤ)
        else ((m.natAbs * 10 ^ 0 + digsVal [] : ℕ) : ℤ)) = m := by
      simp only [pow_zero, Nat.mul_one, digsVal, List.foldl_nil, Nat.add_zero]
      omega
    rw [hmant]
    have hexp : (-(q.den : ℤ) - ((0 : ℕ) : ℤ)) = -(q.den : ℤ) := by simp
    norm_num
    have hneg : ¬ (0 : ℤ) ≤ -(q.den : ℤ) := by
      have := q.den_pos
      omega
    rw [sciToRat, if_neg hneg]
    have htn : ((-(-(q.den : ℤ))).toNat) = q.den := by omega
    rw [htn]
    have hmk : mkRat m (10 ^ q.den) = (m : ℚ) / (((10 : ℕ) ^ q.den : ℕ) : ℚ) := by
      rw [Rat.mkRat_eq_divInt, Rat.divInt_eq_div]
      push_cast
      ring_nf
    rw [hmk, hm, numOK_scaled_int q h]
    have hpow : (((10 : ℕ) ^ q.den : ℕ) : ℚ) = (10 : ℚ) ^ q.den := by push_cast; ring
    rw [hpow]
    exact mul_div_cancel_right₀ q (pow_ne_zero _ (by norm_num))

/-- One unfolding step of the string-body parser on a nonempty input. -/
theorem parseStrF_succ (f : ℕ) (c : Char) (r : List Char) :
    parseStrF (f + 1) (c :: r) =
      (if c = '"' then .ok ([], r)
       else if c = '\\' then
         match r with
         | [] => .error "Unterminated string"
         | e :: r2 =>
           if e = 'u' then
             match r2 with
             | h1 :: h2 :: h3 :: h4 :: r3 =>
               match hex4 h1 h2 h3 h4 with
               | none => .error "Invalid escape"
               | some n =>
                 if 0xD800 ≤ n ∧ n < 0xDC00 then
                   match r3 with
                   | e2 :: u2 :: g1 :: g2 :: g3 :: g4 :: r4 =>
                     if e2 = '\\' ∧ u2 = 'u' then
                       match hex4 g1 g2 g3 g4 with
                       | none => .error "Invalid escape"
                       | some m =>
                         if 0xDC00 ≤ m ∧ m < 0xE000 then
                           match parseStrF f r4 with
                           | .error e3 => .error e3
                           | .ok (cs, rest) =>
                             .ok (Char.ofNat
                               (0x10000 + (n - 0xD800) * 0x400 + (m - 0xDC00)) :: cs, rest)
                         else .error "Unpaired surrogate"
                     else .error "Unpaired surrogate"
                   | _ => .error "Unpaired surrogate"
                 else if 0xDC00 ≤ n ∧ n < 0xE000 then .error "Unpaired surrogate"
                 else
                   match parseStrF f r3 with
                   | .error e3 => .error e3
                   | .ok (cs, rest) => .ok (Char.ofNat n :: cs, rest)
             | _ => .error "Invalid escape"
           else
             match escCode e with
             | none => .error "Invalid escape"
             | some ch =>
               match parseStrF f r2 with
               | .error er => .error er
               | .ok (cs, rest) => .ok (ch :: cs, rest)
       else if c.toNat < 0x20 then .error "Invalid control character"
       else
         match parseStrF f r with
         | .error e3 => .error e3
         | .ok (cs, rest) => .ok (c :: cs, rest)) := rfl

/-- The escape of a control character parses back to that character. -/
theorem parseStrF_ctrl (f : ℕ) (c : Char) (r : List Char) (hc : c.toNat < 0x20) :
    parseStrF (f + 1) ('\\' :: 'u' :: '0' :: '0' ::
        hexDig (c.toNat / 16) :: hexDig (c.toNat % 16) :: r) =
      (match parseStrF f r with
       | .error e => .error e
       | .ok (cs, rest) => .ok (c :: cs, rest)) := by
  have hv1 : hexVal (hexDig (c.toNat / 16)) = some (c.toNat / 16) :=
    hexVal_hexDig _ (by omega)
  have hv2 : hexVal (hexDig (c.toNat % 16)) = some (c.toNat % 16) :=
    hexVal_hexDig _ (by omega)
  have hz : hexVal '0' = some 0 := by decide
  have hh : hex4 '0' '0' (hexDig (c.toNat / 16)) (hexDig (c.toNat % 16)) =
      some c.toNat := by
    simp only [hex4, hv1, hv2, hz]
    congr 1
    omega
  rw [parseStrF_succ]
  rw [if_neg (by decide : ¬ ('\\' = '"')), if_pos rfl]
  dsimp only
  rw [if_pos rfl, hh]
  dsimp only
  have hns : ¬ (0xD800 ≤ c.toNat ∧ c.toNat < 0xDC00) := by omega
  have hns2 : ¬ (0xDC00 ≤ c.toNat ∧ c.toNat < 0xE000) := by omega
  rw [if_neg hns, if_neg hns2, Char.ofNat_toNat]

/-- A plain (unescaped, non-control) character at the head of a string
body is consumed literally. -/
theorem parseStrF_plain (f : ℕ) (c : Char) (r : List Char) (h1 : ¬ c = '"')
    (h2 : ¬ c = '\\') (h3 : ¬ c.toNat < 0x20) :
    parseStrF (f + 1) (c :: r) =
      (match parseStrF f r with
       | .error e => .error e
       | .ok (cs, rest) => .ok (c :: cs, rest)) := by
  rw [parseStrF_succ, if_neg h1, if_neg h2, if_neg h3]

/-- The escaped body of a string followed by the closing quote parses
back to the body, with enough fuel. -/
theorem parseStrF_escList (cs : List Char) :
    ∀ (f : ℕ) (rest : List Char), cs.length < f →
      parseStrF f (escList cs ++ '"' :: rest) = .ok (cs, rest) := by
  induction cs with
  | nil =>
    intro f rest hf
    match f, hf with
    | f + 1, _ =>
      show parseStrF (f + 1) ('"' :: rest) = .ok ([], rest)
      rw [parseStrF_succ, if_pos rfl]
  | cons c cs ih =>
    intro f rest hf
    match f, hf with
    | f + 1, hf =>
      have hff : cs.length < f := by
        simp only [List.length_cons] at hf
        omega
      have ih2 := ih f rest hff
      simp only [escList, List.append_assoc, List.cons_append]
      by_cases h1 : c = '"'
      · subst h1
        show parseStrF (f + 1)
          ('\\' :: '"' :: (escList cs ++ '"' :: rest)) = .ok ('"' :: cs, rest)
        rw [parseStrF_succ]
        rw [if_neg (by decide : ¬ ('\\' = '"')), if_pos rfl]
        dsimp only
        rw [if_neg (by decide : ¬ ('"' = 'u'))]
        rw [(by decide : escCode '"' = some '"')]
        rw [ih2]
      · by_cases h2 : c = '\\'
        · subst h2
          show parseStrF (f + 1)
            ('\\' :: '\\' :: (escList cs ++ '"' :: rest)) = .ok ('\\' :: cs, rest)
          rw [parseStrF_succ]
          rw [if_neg (by decide : ¬ ('\\' = '"')), if_pos rfl]
          dsimp only
          rw [if_neg (by decide : ¬ ('\\' = 'u'))]
          rw [(by decide : escCode '\\' = some '\\')]
          rw [ih2]
        · by_cases h3 : c.toNat < 0x20
          · have hesc : escChar c = ['\\', 'u', '0', '0',
                hexDig (c.toNat / 16), hexDig (c.toNat % 16)] := by
              rw [escChar, if_neg h1, if_neg h2, if_pos h3]
            rw [hesc]
            show parseStrF (f + 1) ('\\' :: 'u' :: '0' :: '0' ::
                hexDig (c.toNat / 16) :: hexDig (c.toNat % 16) ::
                (escList cs ++ '"' :: rest)) = .ok (c :: cs, rest)
            rw [parseStrF_ctrl f c _ h3, ih2]
          · have hesc : escChar c = [c] := by
              rw [escChar, if_neg h1, if_neg h2, if_neg h3]
            rw [hesc]
            show parseStrF (f + 1) (c :: (escList cs ++ '"' :: rest)) =
              .ok (c :: cs, rest)
            rw [parseStrF_plain f c _ h1 h2 h3, ih2]

/-- One escaped character occupies at least one character. -/
theorem escList_length_ge (cs : List Char) : cs.length ≤ (escList cs).length := by
  induction cs with
  | nil => simp [escList]
  | cons c cs ih =>
    simp only [escList, List.length_append, List.length_cons]
    have : 1 ≤ (escChar c).length := by
      rw [escChar]
      split
      · simp
      · split
        · simp
        · split <;> simp
    omega

/-- A serialized string parses back to the same string. -/
theorem parseStr_dumpStr (s : String) (rest : List Char) :
    parseStr (escList s.data ++ '"' :: rest) = .ok (s, rest) := by
  have hf : s.data.length < (escList s.data ++ '"' :: rest).length + 1 := by
    have := escList_length_ge s.data
    simp only [List.length_append, List.length_cons]
    omega
  simp only [parseStr, parseStrL, parseStrF_escList s.data _ rest hf]

theorem sizeOf_lt_of_mem_jlist {x : Json} {xs : List Json} (h : x ∈ xs) :
    sizeOf x < sizeOf (Json.arr xs) := by
  have := List.sizeOf_lt_of_mem h
  simp only [Json.arr.sizeOf_spec]
  omega

theorem sizeOf_snd_lt_of_mem_jpairs {p : String × Json}
    {ps : List (String × Json)} (h : p ∈ ps) :
    sizeOf p.2 < sizeOf (Json.obj ps) := by
  have h1 := List.sizeOf_lt_of_mem h
  have h2 : sizeOf p.2 < sizeOf p := by
    obtain ⟨a, b⟩ := p
    simp only [Prod.mk.sizeOf_spec]
    omega
  simp only [Json.obj.sizeOf_spec]
  omega

theorem isDigit_not_ws (c : Char) (h : c.isDigit = true) : isJsonWs c = false := by
  by_contra hw
  have hw2 : isJsonWs c = true := by
    cases hx : isJsonWs c
    · exact absurd hx hw
    · rfl
  simp only [isJsonWs, Bool.or_eq_true, beq_iff_eq] at hw2
  rcases hw2 with ((h1 | h1) | h1) | h1 <;> subst h1 <;> exact absurd h (by decide)

theorem skipWs_cons_not_ws (c : Char) (l : List Char) (h : isJsonWs c = false) :
    skipWs (c :: l) = c :: l := by
  simp [skipWs, h]

theorem skipWs_space (l : List Char) : skipWs (' ' :: l) = skipWs l := rfl

/-- The serialized form of an integer starts with a minus or a digit. -/
theorem intDump_head (z : ℤ) :
    ∃ c r, intDump z = c :: r ∧ (c = '-' ∨ c.isDigit = true) := by
  rw [intDump]
  by_cases hz : z < 0
  · rw [if_pos hz]
    exact ⟨'-', _, rfl, Or.inl rfl⟩
  · rw [if_neg hz]
    obtain ⟨c, r, hd, hdig, _⟩ := natDigs_cons z.toNat
    exact ⟨c, r, hd, Or.inr hdig⟩

/-- The serialized form of an exact decimal starts with a minus or a
digit. -/
theorem decDump_head (q : ℚ) :
    ∃ c r, decDump q = c :: r ∧ (c = '-' ∨ c.isDigit = true) := by
  rw [decDump]
  by_cases hden : q.den = 1
  · rw [if_pos hden]
    exact intDump_head q.num
  · rw [if_neg hden]
    obtain ⟨c, r, hd, hc⟩ := intDump_head (q * (10 : ℚ) ^ q.den).num
    exact ⟨c, r ++ 'e' :: '-' :: natDigs q.den, by rw [hd]; rfl, hc⟩

/-- Every serialization starts with a non-whitespace character which is
not a closing bracket or brace. -/
theorem dumpJ_head (v : Json) :
    ∃ c r, dumpJ v = c :: r ∧ isJsonWs c = false ∧ ¬ c = ']' ∧ ¬ c = rbrace := by
  cases v with
  | null => exact ⟨'n', _, by rw [dumpJ], by decide, by decide, by decide⟩
  | bool b =>
    cases b with
    | true => exact ⟨'t', _, by rw [dumpJ], by decide, by decide, by decide⟩
    | false => exact ⟨'f', _, by rw [dumpJ], by decide, by decide, by decide⟩
  | num q =>
    obtain ⟨c, r, hd, hc⟩ := decDump_head q
    refine ⟨c, r, by rw [dumpJ]; exact hd, ?_, ?_, ?_⟩
    · rcases hc with hc | hc
      · subst hc; decide
      · exact isDigit_not_ws c hc
    · rcases hc with hc | hc
      · subst hc; decide
      · rintro rfl; exact absurd hc (by decide)
    · rcases hc with hc | hc
      · subst hc; decide
      · rintro rfl; exact absurd hc (by decide)
  | str s =>
    exact ⟨'"', escList s.data ++ ['"'],
      by rw [dumpJ, dumpStr]; simp [List.cons_append], by decide,
      by decide, by decide⟩
  | arr xs => exact ⟨'[', _, by rw [dumpJ], by decide, by decide, by decide⟩
  | obj kvs => exact ⟨lbrace, _, by rw [dumpJ], by decide, by decide, by decide⟩

theorem skipWs_dumpJ (v : Json) (X : List Char) :
    skipWs (dumpJ v ++ X) = dumpJ v ++ X := by
  obtain ⟨c, r, hd, hws, _, _⟩ := dumpJ_head v
  rw [hd, List.cons_append, skipWs_cons_not_ws c _ hws]

/-- The serialized items of a nonempty array start with the first
element's head character. -/
theorem dumpItems_cons_head (y : Json) (ys : List Json) :
    ∃ c r, dumpItems (y :: ys) = c :: r ∧ isJsonWs c = false ∧
      ¬ c = ']' ∧ ¬ c = rbrace := by
  obtain ⟨c, r, hd, hws, h1, h2⟩ := dumpJ_head y
  cases ys with
  | nil => exact ⟨c, r, by rw [dumpItems]; exact hd, hws, h1, h2⟩
  | cons z zs =>
    refine ⟨c, r ++ ',' :: ' ' :: dumpItems (z :: zs), ?_, hws, h1, h2⟩
    rw [dumpItems, hd]
    rfl

theorem skipWs_dumpItems (y : Json) (ys : List Json) (X : List Char) :
    skipWs (dumpItems (y :: ys) ++ X) = dumpItems (y :: ys) ++ X := by
  obtain ⟨c, r, hd, hws, _, _⟩ := dumpItems_cons_head y ys
  rw [hd, List.cons_append, skipWs_cons_not_ws c _ hws]

theorem dictInsert_of_not_mem (kvs : List (String × Json)) (k : String)
    (v : Json) (h : ¬ k ∈ kvs.map Prod.fst) :
    dictInsert kvs k v = kvs ++ [(k, v)] := by
  rw [dictInsert, if_neg h]

/-- Folding dict insertion over pairs with globally distinct keys appends
them in order. -/
theorem buildDict_aux (ps : List (String × Json)) :
    ∀ acc : List (String × Json),
      (acc.map Prod.fst ++ ps.map Prod.fst).Nodup →
      ps.foldl (fun a p => dictInsert a p.1 p.2) acc = acc ++ ps := by
  induction ps with
  | nil => intro acc _; simp
  | cons p ps ih =>
    intro acc h
    simp only [List.foldl_cons]
    have hnm : ¬ p.1 ∈ acc.map Prod.fst := by
      intro hmem
      rw [List.nodup_append] at h
      exact (h.2.2 hmem) (by simp)
    rw [dictInsert_of_not_mem _ _ _ hnm]
    have h2 : ((acc ++ [p]).map Prod.fst ++ ps.map Prod.fst).Nodup := by
      simp only [List.map_append, List.map_cons, List.map_nil] at h ⊢
      simpa [List.append_assoc] using h
    rw [ih (acc ++ [p]) h2]
    simp

/-- With distinct keys, the dict built from parsed pairs is the pair list
itself. -/
theorem buildDict_self (kvs : List (String × Json))
    (h : (kvs.map Prod.fst).Nodup) : buildDict kvs = kvs := by
  have := buildDict_aux kvs [] (by simpa using h)
  simpa [buildDict] using this

/-- The loop fuel for serialized array items is within one of three times
the serialization length. -/
theorem itemsNeed_le (xs : List Json)
    (IH : ∀ x ∈ xs, fuelNeed x ≤ 3 * (dumpJ x).length) :
    itemsNeed xs ≤ 3 * (dumpItems xs).length + 1 := by
  induction xs with
  | nil => simp [itemsNeed]
  | cons x xs ih =>
    have hx := IH x (by simp)
    cases xs with
    | nil =>
      rw [itemsNeed, itemsNeed, dumpItems]
      simp only [Nat.max_zero]
      omega
    | cons y ys =>
      have ih2 := ih (fun z hz => IH z (by simp [hz]))
      rw [itemsNeed, dumpItems]
      simp only [List.length_append, List.length_cons]
      have hmax : Nat.max (fuelNeed x) (itemsNeed (y :: ys)) ≤
          3 * (dumpJ x).length + (3 * (dumpItems (y :: ys)).length + 1) :=
        max_le (le_trans hx (Nat.le_add_right _ _))
          (le_trans ih2 (Nat.le_add_left _ _))
      omega

/-- The loop fuel for serialized object pairs is within one of three
times the serialization length. -/
theorem pairsNeed_le (ps : List (String × Json))
    (IH : ∀ p ∈ ps, fuelNeed p.2 ≤ 3 * (dumpJ p.2).length) :
    pairsNeed ps ≤ 3 * (dumpPairs ps).length + 1 := by
  induction ps with
  | nil => simp [pairsNeed]
  | cons p ps ih =>
    obtain ⟨k, v⟩ := p
    have hx : fuelNeed v ≤ 3 * (dumpJ v).length := IH ⟨k, v⟩ (by simp)
    cases ps with
    | nil =>
      rw [pairsNeed, pairsNeed, dumpPairs]
      simp only [Nat.max_zero, List.length_append, List.length_cons]
      omega
    | cons q qs =>
      have ih2 := ih (fun z hz => IH z (by simp [hz]))
      rw [pairsNeed, dumpPairs]
      simp only [List.length_append, List.length_cons]
      have hmax : Nat.max (fuelNeed v) (pairsNeed (q :: qs)) ≤
          3 * (dumpJ v).length + (3 * (dumpPairs (q :: qs)).length + 1) :=
        max_le (le_trans hx (Nat.le_add_right _ _))
          (le_trans ih2 (Nat.le_add_left _ _))
      omega

/-- The parser fuel needed for a value is at most three times its
serialization length. -/
theorem fuelNeed_le (N : ℕ) : ∀ v : Json, sizeOf v ≤ N →
    fuelNeed v ≤ 3 * (dumpJ v).length := by
  induction N with
  | zero =>
    intro v hv
    have : 0 < sizeOf v := by cases v <;> simp_arith
    omega
  | succ N ih =>
    intro v hv
    have hlen : 1 ≤ (dumpJ v).length := by
      obtain ⟨c, r, hd, _, _, _⟩ := dumpJ_head v
      rw [hd]
      simp
    cases v with
    | null => rw [fuelNeed]; omega
    | bool b => rw [fuelNeed]; omega
    | num q => rw [fuelNeed]; omega
    | str s => rw [fuelNeed]; omega
    | arr xs =>
      have hitems := itemsNeed_le xs (fun x hx => ih x (by
        have := sizeOf_lt_of_mem_jlist hx
        omega))
      rw [fuelNeed, dumpJ]
      simp only [List.length_cons, List.length_append, List.length_singleton]
      omega
    | obj kvs =>
      have hpairs := pairsNeed_le kvs (fun p hp => ih p.2 (by
        have := sizeOf_snd_lt_of_mem_jpairs hp
        omega))
      rw [fuelNeed, dumpJ]
      simp only [List.length_cons, List.length_append, List.length_singleton]
      omega

theorem parseF_value_lbrace (f : ℕ) (r : List Char) :
    parseF (f + 1) .value (lbrace :: r) = parseF f .objStart (skipWs r) := rfl

theorem parseF_value_lbrack (f : ℕ) (r : List Char) :
    parseF (f + 1) .value ('[' :: r) = parseF f .arrStart (skipWs r) := rfl

theorem parseF_value_quote (f : ℕ) (r : List Char) :
    parseF (f + 1) .value ('"' :: r) =
      (match parseStr r with
       | .error e => .error e
       | .ok (s, rest) => .ok (.val (Json.str s), rest)) := rfl

theorem parseF_value_null (f : ℕ) (rest : List Char) :
    parseF (f + 1) .value ('n' :: 'u' :: 'l' :: 'l' :: rest) =
      .ok (.val Json.null, rest) := rfl

theorem parseF_value_true (f : ℕ) (rest : List Char) :
    parseF (f + 1) .value ('t' :: 'r' :: 'u' :: 'e' :: rest) =
      .ok (.val (Json.bool true), rest) := rfl

theorem parseF_value_false (f : ℕ) (rest : List Char) :
    parseF (f + 1) .value ('f' :: 'a' :: 'l' :: 's' :: 'e' :: rest) =
      .ok (.val (Json.bool false), rest) := rfl

/-- On a minus sign or digit the value parser hands over to the number
parser. -/
theorem parseF_value_num (f : ℕ) (c : Char) (r : List Char)
    (h : c = '-' ∨ c.isDigit = true) :
    parseF (f + 1) .value (c :: r) =
      (match parseNumber (c :: r) with
       | .error e => .error e
       | .ok (q, rest) => .ok (.val (Json.num q), rest)) := by
  have n1 : ¬ c = lbrace := by rintro rfl; revert h; decide
  have n2 : ¬ c = '[' := by rintro rfl; revert h; decide
  have n3 : ¬ c = '"' := by rintro rfl; revert h; decide
  have n4 : ¬ c = 'n' := by rintro rfl; revert h; decide
  have n5 : ¬ c = 't' := by rintro rfl; revert h; decide
  have n6 : ¬ c = 'f' := by rintro rfl; revert h; decide
  rw [parseF_value_cons, if_neg n1, if_neg n2, if_neg n3, if_neg n4,
    if_neg n5, if_neg n6, if_pos h]

/-- The items loop accepts the serialized elements of a nonempty array
followed by the closing bracket. -/
theorem RTitems (xs : List Json)
    (IH : ∀ x ∈ xs, ∀ (f : ℕ) (rest : List Char), fuelNeed x ≤ f → Stop rest →
      parseF f .value (dumpJ x ++ rest) = .ok (.val x, rest)) :
    xs ≠ [] → ∀ (f : ℕ) (rest : List Char), itemsNeed xs ≤ f →
      parseF f .arrItems (dumpItems xs ++ ']' :: rest) = .ok (.items xs, rest) := by
  induction xs with
  | nil => intro h; exact absurd rfl h
  | cons x xs ih =>
    intro _ f rest hfuel
    have hpos : 1 ≤ f := by rw [itemsNeed] at hfuel; omega
    obtain ⟨g, rfl⟩ : ∃ g, f = g + 1 := ⟨f - 1, by omega⟩
    have hm1 : fuelNeed x ≤ Nat.max (fuelNeed x) (itemsNeed xs) := le_max_left _ _
    have hm2 : itemsNeed xs ≤ Nat.max (fuelNeed x) (itemsNeed xs) := le_max_right _ _
    have hfx : fuelNeed x ≤ g := by rw [itemsNeed] at hfuel; omega
    rw [parseF_arrItems_eq]
    cases xs with
    | nil =>
      rw [show dumpItems [x] = dumpJ x from by rw [dumpItems]]
      rw [IH x (by simp) g (']' :: rest) hfx (Or.inr (Or.inl rfl))]
      dsimp only
      rw [skipWs_cons_not_ws ']' rest (by decide)]
      rfl
    | cons y ys =>
      have hfi : itemsNeed (y :: ys) ≤ g := by rw [itemsNeed] at hfuel; omega
      rw [show dumpItems (x :: y :: ys) = dumpJ x ++ ',' :: ' ' :: dumpItems (y :: ys)
        from by rw [dumpItems]]
      simp only [List.append_assoc, List.cons_append]
      rw [IH x (by simp) g (',' :: ' ' :: (dumpItems (y :: ys) ++ ']' :: rest))
        hfx (Or.inl rfl)]
      dsimp only
      rw [skipWs_cons_not_ws ',' _ (by decide)]
      dsimp only
      rw [if_neg (by decide : ¬ (',' = ']')), if_pos rfl]
      rw [skipWs_space, skipWs_dumpItems y ys]
      rw [ih (fun z hz => IH z (by simp [hz])) (by simp) g rest hfi]

/-- The serialized pairs of a nonempty object start with the opening
quote of the first key. -/
theorem dumpPairs_cons_head (p : String × Json) (ps : List (String × Json)) :
    ∃ r, dumpPairs (p :: ps) = '"' :: r := by
  obtain ⟨k, v⟩ := p
  cases ps with
  | nil =>
    refine ⟨escList k.data ++ ['"'] ++ ':' :: ' ' :: dumpJ v, ?_⟩
    rw [dumpPairs, dumpStr]
    simp [List.cons_append, List.append_assoc]
  | cons q qs =>
    refine ⟨escList k.data ++ ['"'] ++ ':' :: ' ' :: dumpJ v ++
      ',' :: ' ' :: dumpPairs (q :: qs), ?_⟩
    rw [dumpPairs, dumpStr]
    simp [List.cons_append, List.append_assoc]

theorem skipWs_dumpPairs (p : String × Json) (ps : List (String × Json))
    (X : List Char) :
    skipWs (dumpPairs (p :: ps) ++ X) = dumpPairs (p :: ps) ++ X := by
  obtain ⟨r, hd⟩ := dumpPairs_cons_head p ps
  rw [hd, List.cons_append, skipWs_cons_not_ws '"' _ (by decide)]

/-- The pairs loop accepts the serialized pairs of a nonempty object
followed by the closing brace. -/
theorem RTpairs (ps : List (String × Json))
    (IH : ∀ p ∈ ps, ∀ (f : ℕ) (rest : List Char), fuelNeed p.2 ≤ f → Stop rest →
      parseF f .value (dumpJ p.2 ++ rest) = .ok (.val p.2, rest)) :
    ps ≠ [] → ∀ (f : ℕ) (rest : List Char), pairsNeed ps ≤ f →
      parseF f .objItems (dumpPairs ps ++ rbrace :: rest) = .ok (.pairs ps, rest) := by
  induction ps with
  | nil => intro h; exact absurd rfl h
  | cons p ps ih =>
    obtain ⟨k, v⟩ := p
    intro _ f rest hfuel
    have hpos : 1 ≤ f := by rw [pairsNeed] at hfuel; omega
    obtain ⟨g, rfl⟩ : ∃ g, f = g + 1 := ⟨f - 1, by omega⟩
    have hfx : fuelNeed v ≤ g := by
      have hm1 : fuelNeed v ≤ Nat.max (fuelNeed v) (pairsNeed ps) := le_max_left _ _
      rw [pairsNeed] at hfuel
      omega
    cases ps with
    | nil =>
      rw [show dumpPairs [(k, v)] = dumpStr k ++ ':' :: ' ' :: dumpJ v from by
        rw [dumpPairs]]
      rw [dumpStr]
      simp only [List.cons_append, List.append_assoc, List.nil_append]
      rw [parseF_objItems_cons, if_pos rfl]
      rw [parseStr_dumpStr k (':' :: ' ' :: (dumpJ v ++ rbrace :: rest))]
      dsimp only
      rw [skipWs_cons_not_ws ':' _ (by decide)]
      dsimp only
      rw [if_pos rfl]
      rw [skipWs_space, skipWs_dumpJ v]
      rw [IH ⟨k, v⟩ (by simp) g (rbrace :: rest) hfx (Or.inr (Or.inr rfl))]
      dsimp only
      rw [skipWs_cons_not_ws rbrace _ (by decide)]
      dsimp only
      rw [if_pos rfl]
    | cons q qs =>
      have hfi : pairsNeed (q :: qs) ≤ g := by
        have hm2 : pairsNeed (q :: qs) ≤
            Nat.max (fuelNeed v) (pairsNeed (q :: qs)) := le_max_right _ _
        rw [pairsNeed] at hfuel
        omega
      rw [show dumpPairs ((k, v) :: q :: qs) =
          dumpStr k ++ ':' :: ' ' :: dumpJ v ++ ',' :: ' ' :: dumpPairs (q :: qs)
        from by rw [dumpPairs]]
      rw [dumpStr]
      simp only [List.cons_append, List.append_assoc, List.nil_append]
      rw [parseF_objItems_cons, if_pos rfl]
      rw [parseStr_dumpStr k
        (':' :: ' ' :: (dumpJ v ++ ',' :: ' ' :: (dumpPairs (q :: qs) ++ rbrace :: rest)))]
      dsimp only
      rw [skipWs_cons_not_ws ':' _ (by decide)]
      dsimp only
      rw [if_pos rfl]
      rw [skipWs_space, skipWs_dumpJ v]
      rw [IH ⟨k, v⟩ (by simp) g
        (',' :: ' ' :: (dumpPairs (q :: qs) ++ rbrace :: rest)) hfx (Or.inl rfl)]
      dsimp only
      rw [skipWs_cons_not_ws ',' _ (by decide)]
      dsimp only
      rw [if_neg (by decide : ¬ (',' = rbrace)), if_pos rfl]
      rw [skipWs_space, skipWs_dumpPairs q qs]
      rw [ih (fun z hz => IH z (by simp [hz])) (by simp) g rest hfi]

/-- Round trip of the value parser over the serializer: with enough fuel,
the serialization of a well-formed value followed by a stop boundary
parses back to exactly that value. -/
theorem RTval (N : ℕ) : ∀ v : Json, sizeOf v ≤ N → JsonWF v →
    ∀ (f : ℕ) (rest : List Char), fuelNeed v ≤ f → Stop rest →
      parseF f .value (dumpJ v ++ rest) = .ok (.val v, rest) := by
  induction N with
  | zero =>
    intro v hv
    have : 0 < sizeOf v := by cases v <;> simp_arith
    omega
  | succ N ihN =>
    intro v hv hwf f rest hfuel hstop
    have hpos : 1 ≤ f := by
      have : 1 ≤ fuelNeed v := by cases v <;> rw [fuelNeed] <;> omega
      omega
    obtain ⟨g, rfl⟩ : ∃ g, f = g + 1 := ⟨f - 1, by omega⟩
    cases v with
    | null =>
      rw [show dumpJ Json.null ++ rest = 'n' :: 'u' :: 'l' :: 'l' :: rest from rfl]
      exact parseF_value_null g rest
    | bool b =>
      cases b with
      | true =>
        rw [show dumpJ (Json.bool true) ++ rest = 't' :: 'r' :: 'u' :: 'e' :: rest
          from rfl]
        exact parseF_value_true g rest
      | false =>
        rw [show dumpJ (Json.bool false) ++ rest =
          'f' :: 'a' :: 'l' :: 's' :: 'e' :: rest from rfl]
        exact parseF_value_false g rest
    | num q =>
      have hnum : numOK q := by cases hwf with | num _ h => exact h
      obtain ⟨c, r, hd, hc⟩ := decDump_head q
      have hdump : dumpJ (Json.num q) = decDump q := by rw [dumpJ]
      rw [hdump, hd, List.cons_append, parseF_value_num g c _ hc]
      rw [← List.cons_append, ← hd, parseNumber_decDump q rest hnum hstop]
    | str s =>
      have hdump : dumpJ (Json.str s) ++ rest =
          '"' :: (escList s.data ++ '"' :: rest) := by
        rw [dumpJ, dumpStr]
        simp [List.cons_append, List.append_assoc]
      rw [hdump, parseF_value_quote, parseStr_dumpStr s rest]
    | arr xs =>
      have helems : ∀ x ∈ xs, JsonWF x := by cases hwf with | arr _ h => exact h
      have hIH : ∀ x ∈ xs, ∀ (f : ℕ) (rest : List Char), fuelNeed x ≤ f →
          Stop rest → parseF f .value (dumpJ x ++ rest) = .ok (.val x, rest) := by
        intro x hx
        exact ihN x (by have := sizeOf_lt_of_mem_jlist hx; omega) (helems x hx)
      obtain ⟨h, rfl⟩ : ∃ h, g = h + 1 :=
        ⟨g - 1, by rw [fuelNeed] at hfuel; omega⟩
      rw [show dumpJ (Json.arr xs) ++ rest =
          '[' :: (dumpItems xs ++ ']' :: rest) from by
        rw [dumpJ]; simp [List.cons_append, List.append_assoc]]
      rw [parseF_value_lbrack]
      cases xs with
      | nil =>
        rw [show dumpItems ([] : List Json) = [] from by rw [dumpItems]]
        rw [show skipWs (([] : List Char) ++ ']' :: rest) = ']' :: rest from by
          simp [skipWs_cons_not_ws ']' rest (by decide)]]
        rw [parseF_arrStart_cons, if_pos rfl]
      | cons y ys =>
        rw [skipWs_dumpItems y ys (']' :: rest)]
        obtain ⟨c, r, hd, _, hne1, _⟩ := dumpItems_cons_head y ys
        rw [hd, List.cons_append, parseF_arrStart_cons, if_neg hne1,
          ← List.cons_append, ← hd]
        rw [RTitems (y :: ys) hIH (by simp) h rest
          (by rw [fuelNeed] at hfuel; omega)]
    | obj kvs =>
      have hnodup : (kvs.map Prod.fst).Nodup := by
        cases hwf with | obj _ h1 _ => exact h1
      have hvals : ∀ p ∈ kvs, JsonWF p.2 := by
        cases hwf with | obj _ _ h2 => exact h2
      have hIH : ∀ p ∈ kvs, ∀ (f : ℕ) (rest : List Char), fuelNeed p.2 ≤ f →
          Stop rest → parseF f .value (dumpJ p.2 ++ rest) = .ok (.val p.2, rest) := by
        intro p hp
        exact ihN p.2 (by have := sizeOf_snd_lt_of_mem_jpairs hp; omega)
          (hvals p hp)
      obtain ⟨h, rfl⟩ : ∃ h, g = h + 1 :=
        ⟨g - 1, by rw [fuelNeed] at hfuel; omega⟩
      rw [show dumpJ (Json.obj kvs) ++ rest =
          lbrace :: (dumpPairs kvs ++ rbrace :: rest) from by
        rw [dumpJ]; simp [List.cons_append, List.append_assoc]]
      rw [parseF_value_lbrace]
      cases kvs with
      | nil =>
        rw [show dumpPairs ([] : List (String × Json)) = [] from by rw [dumpPairs]]
        rw [show skipWs (([] : List Char) ++ rbrace :: rest) = rbrace :: rest from by
          simp [skipWs_cons_not_ws rbrace rest (by decide)]]
        rw [parseF_objStart_cons, if_pos rfl]
      | cons p ps =>
        rw [skipWs_dumpPairs p ps (rbrace :: rest)]
        obtain ⟨r, hd⟩ := dumpPairs_cons_head p ps
        rw [hd, List.cons_append, parseF_objStart_cons,
          if_neg (by decide : ¬ ('"' = rbrace)), ← List.cons_append, ← hd]
        rw [RTpairs (p :: ps) hIH (by simp) h rest
          (by rw [fuelNeed] at hfuel; omega)]
        dsimp only
        rw [buildDict_self (p :: ps) hnodup]

/-- Every value sciToRat can produce is an exact decimal. -/
theorem sciToRat_numOK (mant e : ℤ) : numOK (sciToRat mant e) := by
  rw [sciToRat]
  by_cases he : 0 ≤ e
  · rw [if_pos he]
    exact ⟨mant * 10 ^ e.toNat, 0, by push_cast; simp⟩
  · rw [if_neg he]
    refine ⟨mant, (-e).toNat, ?_⟩
    rw [Rat.mkRat_eq_divInt, Rat.divInt_eq_div]
    push_cast
    rfl

/-- Every number the number parser returns is an exact decimal. -/
theorem parseNumber_numOK (l : List Char) (q : ℚ) (r : List Char)
    (h : parseNumber l = .ok (q, r)) : numOK q := by
  simp only [parseNumber] at h
  cases hI : parseIntPart (parseSign l).2 with
  | error e => rw [hI] at h; exact Except.noConfusion h
  | ok p =>
    obtain ⟨i, l2⟩ := p
    rw [hI] at h
    cases h
    exact sciToRat_numOK _ _

/-- Inserting a key that is already present leaves the key list
unchanged. -/
theorem dictInsert_keys_mem (kvs : List (String × Json)) (k : String)
    (v : Json) (h : k ∈ kvs.map Prod.fst) :
    (dictInsert kvs k v).map Prod.fst = kvs.map Prod.fst := by
  rw [dictInsert, if_pos h, List.map_map]
  apply List.map_congr_left
  intro p _
  by_cases hpk : p.1 = k
  · simp [Function.comp, hpk]
  · simp [Function.comp, hpk]

/-- dict insertion preserves distinctness of the keys. -/
theorem dictInsert_nodup (kvs : List (String × Json)) (k : String)
    (v : Json) (h : (kvs.map Prod.fst).Nodup) :
    ((dictInsert kvs k v).map Prod.fst).Nodup := by
  by_cases hk : k ∈ kvs.map Prod.fst
  · rw [dictInsert_keys_mem kvs k v hk]
    exact h
  · rw [dictInsert, if_neg hk, List.map_append]
    refine List.Nodup.append h (by simp) ?_
    intro a ha hb
    simp only [List.map_cons, List.map_nil, List.mem_singleton] at hb
    exact hk (hb ▸ ha)

/-- Every pair of an insertion result is an original pair or the inserted
one. -/
theorem dictInsert_mem (kvs : List (String × Json)) (k : String) (v : Json)
    (q : String × Json) (h : q ∈ dictInsert kvs k v) : q ∈ kvs ∨ q = (k, v) := by
  rw [dictInsert] at h
  by_cases hk : k ∈ kvs.map Prod.fst
  · rw [if_pos hk] at h
    obtain ⟨p, hp, hpq⟩ := List.mem_map.mp h
    by_cases hpk : p.1 = k
    · right
      rw [← hpq, if_pos hpk]
    · left
      rw [← hpq, if_neg hpk]
      exact hp
  · rw [if_neg hk] at h
    rcases List.mem_append.mp h with h1 | h1
    · exact Or.inl h1
    · right
      simpa using h1

/-- Folding dict insertion keeps the keys distinct. -/
theorem foldl_dictInsert_nodup (ps : List (String × Json)) :
    ∀ acc : List (String × Json), (acc.map Prod.fst).Nodup →
      ((ps.foldl (fun a p => dictInsert a p.1 p.2) acc).map Prod.fst).Nodup := by
  induction ps with
  | nil => intro acc h; exact h
  | cons p ps ih =>
    intro acc h
    exact ih _ (dictInsert_nodup _ _ _ h)

/-- Every pair of a dict insertion fold comes from the accumulator or the
input pairs. -/
theorem foldl_dictInsert_mem (ps : List (String × Json)) :
    ∀ (acc : List (String × Json)) (q : String × Json),
      q ∈ ps.foldl (fun a p => dictInsert a p.1 p.2) acc → q ∈ acc ∨ q ∈ ps := by
  induction ps with
  | nil => intro acc q h; exact Or.inl h
  | cons p ps ih =>
    intro acc q h
    rcases ih (dictInsert acc p.1 p.2) q h with h1 | h1
    · rcases dictInsert_mem _ _ _ _ h1 with h2 | h2
      · exact Or.inl h2
      · right
        rw [h2]
        simp
    · exact Or.inr (List.mem_cons_of_mem _ h1)

/-- The dict the json module builds has distinct keys. -/
theorem buildDict_nodup (ps : List (String × Json)) :
    ((buildDict ps).map Prod.fst).Nodup :=
  foldl_dictInsert_nodup ps [] (by simp)

/-- Every pair of the built dict is one of the parsed pairs. -/
theorem buildDict_mem (ps : List (String × Json)) (q : String × Json)
    (h : q ∈ buildDict ps) : q ∈ ps := by
  rcases foldl_dictInsert_mem ps [] q h with h1 | h1
  · simp at h1
  · exact h1

/-- Every successful parse, in any mode, is well formed: numbers are exact
decimals, object keys are distinct, and the invariant holds through the
item and pair lists. -/
theorem parseF_wf (f : ℕ) : ∀ (m : PMode) (l : List Char) (o : POut)
    (r : List Char), parseF f m l = .ok (o, r) → POutWF o := by
  induction f with
  | zero =>
    intro m l o r h
    cases m <;> exact Except.noConfusion h
  | succ f ih =>
    intro m l o r h
    cases m with
    | value =>
      cases l with
      | nil => exact Except.noConfusion h
      | cons c rest =>
        rw [parseF_value_cons] at h
        by_cases h1 : c = lbrace
        · rw [if_pos h1] at h
          exact ih .objStart _ _ _ h
        · rw [if_neg h1] at h
          by_cases h2 : c = '['
          · rw [if_pos h2] at h
            exact ih .arrStart _ _ _ h
          · rw [if_neg h2] at h
            by_cases h3 : c = '"'
            · rw [if_pos h3] at h
              cases hs : parseStr rest with
              | error e => rw [hs] at h; exact Except.noConfusion h
              | ok p =>
                obtain ⟨s, r1⟩ := p
                rw [hs] at h
                cases h
                exact JsonWF.str s
            · rw [if_neg h3] at h
              by_cases h4 : c = 'n'
              · rw [if_pos h4] at h
                split at h
                · cases h
                  exact JsonWF.null
                · exact Except.noConfusion h
              · rw [if_neg h4] at h
                by_cases h5 : c = 't'
                · rw [if_pos h5] at h
                  split at h
                  · cases h
                    exact JsonWF.bool true
                  · exact Except.noConfusion h
                · rw [if_neg h5] at h
                  by_cases h6 : c = 'f'
                  · rw [if_pos h6] at h
                    split at h
                    · cases h
                      exact JsonWF.bool false
                    · exact Except.noConfusion h
                  · rw [if_neg h6] at h
                    by_cases h7 : c = '-' ∨ c.isDigit
                    · rw [if_pos h7] at h
                      cases hN : parseNumber (c :: rest) with
                      | error e => rw [hN] at h; exact Except.noConfusion h
                      | ok p =>
                        obtain ⟨q, r2⟩ := p
                        rw [hN] at h
                        cases h
                        exact JsonWF.num q (parseNumber_numOK _ _ _ hN)
                    · rw [if_neg h7] at h
                      exact Except.noConfusion h
    | objStart =>
      cases l with
      | nil => exact Except.noConfusion h
      | cons c rest =>
        rw [parseF_objStart_cons] at h
        by_cases hc : c = rbrace
        · rw [if_pos hc] at h
          cases h
          exact JsonWF.obj [] (by simp) (by simp)
        · rw [if_neg hc] at h
          cases hp : parseF f .objItems (c :: rest) with
          | error e => rw [hp] at h; exact Except.noConfusion h
          | ok out =>
            obtain ⟨po, r2⟩ := out
            rw [hp] at h
            cases po with
            | val v => exact Except.noConfusion h
            | items vs => exact Except.noConfusion h
            | pairs ps =>
              cases h
              have hps : ∀ p ∈ ps, JsonWF p.2 := ih .objItems _ _ _ hp
              exact JsonWF.obj _ (buildDict_nodup ps)
                (fun p hpm => hps p (buildDict_mem ps p hpm))
    | objItems =>
      cases l with
      | nil => exact Except.noConfusion h
      | cons c rest =>
        rw [parseF_objItems_cons] at h
        by_cases hc : c = '"'
        · rw [if_pos hc] at h
          cases hs : parseStr rest with
          | error e => rw [hs] at h; exact Except.noConfusion h
          | ok p =>
            obtain ⟨k, r1⟩ := p
            rw [hs] at h
            simp only at h
            cases hw : skipWs r1 with
            | nil => rw [hw] at h; exact Except.noConfusion h
            | cons d0 r2 =>
              rw [hw] at h
              simp only at h
              by_cases hd0 : d0 = ':'
              · rw [if_pos hd0] at h
                cases hv : parseF f .value (skipWs r2) with
                | error e => rw [hv] at h; exact Except.noConfusion h
                | ok p2 =>
                  obtain ⟨po, r3⟩ := p2
                  rw [hv] at h
                  cases po with
                  | items vs => exact Except.noConfusion h
                  | pairs ps => exact Except.noConfusion h
                  | val v =>
                    simp only at h
                    have hvWF : JsonWF v := ih .value _ _ _ hv
                    cases hw2 : skipWs r3 with
                    | nil => rw [hw2] at h; exact Except.noConfusion h
                    | cons d r4 =>
                      rw [hw2] at h
                      simp only at h
                      by_cases hdr : d = rbrace
                      · rw [if_pos hdr] at h
                        cases h
                        intro p hp
                        rw [List.mem_singleton] at hp
                        rw [hp]
                        exact hvWF
                      · rw [if_neg hdr] at h
                        by_cases hdc : d = ','
                        · rw [if_pos hdc] at h
                          cases hrec : parseF f .objItems (skipWs r4) with
                          | error e => rw [hrec] at h; exact Except.noConfusion h
                          | ok p3 =>
                            obtain ⟨po2, r5⟩ := p3
                            rw [hrec] at h
                            cases po2 with
                            | val w => exact Except.noConfusion h
                            | items vs => exact Except.noConfusion h
                            | pairs ps =>
                              cases h
                              have hps : ∀ p ∈ ps, JsonWF p.2 :=
                                ih .objItems _ _ _ hrec
                              intro p hp
                              rcases List.mem_cons.mp hp with h1 | h1
                              · rw [h1]
                                exact hvWF
                              · exact hps p h1
                        · rw [if_neg hdc] at h
                          exact Except.noConfusion h
              · rw [if_neg hd0] at h
                exact Except.noConfusion h
        · rw [if_neg hc] at h
          exact Except.noConfusion h
    | arrStart =>
      cases l with
      | nil => exact Except.noConfusion h
      | cons c rest =>
        rw [parseF_arrStart_cons] at h
        by_cases hc : c = ']'
        · rw [if_pos hc] at h
          cases h
          exact JsonWF.arr [] (by simp)
        · rw [if_neg hc] at h
          cases hp : parseF f .arrItems (c :: rest) with
          | error e => rw [hp] at h; exact Except.noConfusion h
          | ok out =>
            obtain ⟨po, r2⟩ := out
            rw [hp] at h
            cases po with
            | val v => exact Except.noConfusion h
            | pairs ps => exact Except.noConfusion h
            | items vs =>
              cases h
              exact JsonWF.arr vs (ih .arrItems _ _ _ hp)
    | arrItems =>
      rw [parseF_arrItems_eq] at h
      cases hv : parseF f .value l with
      | error e => rw [hv] at h; exact Except.noConfusion h
      | ok p =>
        obtain ⟨po, r1⟩ := p
        rw [hv] at h
        cases po with
        | items vs => exact Except.noConfusion h
        | pairs ps => exact Except.noConfusion h
        | val v =>
          simp only at h
          have hvWF : JsonWF v := ih .value _ _ _ hv
          cases hw : skipWs r1 with
          | nil => rw [hw] at h; exact Except.noConfusion h
          | cons d r2 =>
            rw [hw] at h
            simp only at h
            by_cases hd : d = ']'
            · rw [if_pos hd] at h
              cases h
              intro x hx
              rw [List.mem_singleton] at hx
              rw [hx]
              exact hvWF
            · rw [if_neg hd] at h
              by_cases hdc : d = ','
              · rw [if_pos hdc] at h
                cases hrec : parseF f .arrItems (skipWs r2) with
                | error e => rw [hrec] at h; exact Except.noConfusion h
                | ok p2 =>
                  obtain ⟨po2, r3⟩ := p2
                  rw [hrec] at h
                  cases po2 with
                  | val w => exact Except.noConfusion h
                  | pairs ps => exact Except.noConfusion h
                  | items vs =>
                    cases h
                    have hvs : ∀ x ∈ vs, JsonWF x := ih .arrItems _ _ _ hrec
                    intro x hx
                    rcases List.mem_cons.mp hx with h1 | h1
                    · rw [h1]
                      exact hvWF
                    · exact hvs x h1
              · rw [if_neg hdc] at h
                exact Except.noConfusion h

/-- Every value json.loads returns is well formed. -/
theorem jsonLoadsL_wf (l : List Char) (v : Json) (h : jsonLoadsL l = .ok v) :
    JsonWF v := by
  rw [jsonLoadsL] at h
  cases hp : parseF (3 * l.length + 3) .value (skipWs l) with
  | error e => rw [hp] at h; exact Except.noConfusion h
  | ok p =>
    obtain ⟨po, rest⟩ := p
    rw [hp] at h
    cases po with
    | items vs => exact Except.noConfusion h
    | pairs ps => exact Except.noConfusion h
    | val w =>
      simp only at h
      by_cases hr : skipWs rest = []
      · rw [if_pos hr] at h
        cases h
        exact parseF_wf _ _ _ _ _ hp
      · rw [if_neg hr] at h
        exact Except.noConfusion h

/-- json.loads of json.dumps is the identity on well-formed values. -/
theorem jsonLoads_dumps (v : Json) (h : JsonWF v) :
    jsonLoads (dumps v) = .ok v := by
  have hdata : (dumps v).data = dumpJ v := rfl
  rw [jsonLoads, hdata, jsonLoadsL]
  have hsk : skipWs (dumpJ v) = dumpJ v := by
    have h2 := skipWs_dumpJ v []
    simpa using h2
  rw [hsk]
  have hfuel : fuelNeed v ≤ 3 * (dumpJ v).length + 3 := by
    have := fuelNeed_le (sizeOf v) v le_rfl
    omega
  have hrt := RTval (sizeOf v) v le_rfl h (3 * (dumpJ v).length + 3) []
    hfuel (by trivial)
  rw [List.append_nil] at hrt
  rw [hrt]
  rfl

/-- Every result of the extractor is well formed, failure included. -/
theorem safe_parse_json_wf (t : String) : JsonWF (safe_parse_json t) := by
  cases hl : jsonLoads t with
  | ok v =>
    rw [safe_parse_json_of_ok t v hl]
    exact jsonLoadsL_wf t.data v hl
  | error e =>
    rw [safe_parse_json_of_err t e hl]
    cases hb : braceFallback t with
    | error e2 => exact JsonWF.null
    | ok v =>
      rcases braceFallback_cases t with ⟨e2, _, hb2⟩ | ⟨i, e2, _, _, hb2⟩ |
        ⟨i, j, _, _, hb2⟩
      · rw [hb2] at hb
        exact Except.noConfusion hb
      · rw [hb2] at hb
        exact Except.noConfusion hb
      · rw [hb2] at hb
        exact jsonLoadsL_wf _ _ hb

/-- C9: Extraction is idempotent under serialization: whenever the
extractor maps an input t to a result m, feeding the JSON serialization
of m back into the extractor yields the same m.  (This covers the
claimed success case, and even the failure result None round-trips,
since None serializes as null.) -/
theorem C9_idempotent (t : String) (m : Json) (h : safe_parse_json t = m) :
    safe_parse_json (dumps m) = m := by
  have hwf : JsonWF m := h ▸ safe_parse_json_wf t
  exact safe_parse_json_of_ok (dumps m) m (jsonLoads_dumps m hwf)

/-- C9 witness: a successful extraction of a one-pair mapping, and its
serialization extracting back to the same mapping. -/
theorem C9_witness :
    safe_parse_json "\x7b\"a\": 1\x7d" = Json.obj [("a", Json.num 1)] ∧
    safe_parse_json (dumps (Json.obj [("a", Json.num 1)])) =
      Json.obj [("a", Json.num 1)] :=
  ⟨rfl, C9_idempotent "\x7b\"a\": 1\x7d" (Json.obj [("a", Json.num 1)]) rfl⟩
